import Mathlib

/-!
# Verification of the cretonne new-backend lowering and allocation code

This development is a shallow embedding of the machine-instruction lowering
driver (`machinst/lower.rs`), the ARM64 lowering backend
(`isa/arm64/lower.rs`), and the minimal/alt register allocators
(`regalloc/alt_alloc.rs`) of the repository, together with proofs of the
behavioural properties claimed for them.

Conventions used throughout:

* Rust machine integers are modelled as `Nat`/`Int` with explicit reductions
  modulo `2 ^ 64` where the Rust code relies on wrap-around or casts.
* Entity references (`Inst`, `Value`, `Ebb`, registers, stack slots) are
  modelled as `Nat` handles.
* Rust panics (`assert!`, `unreachable!`, `panic!`, `unimplemented!`) are
  modelled by `Except`/`Option` results; a `Fatal` value distinguishes the
  assertion/`unreachable` class of aborts from `unimplemented!` aborts,
  mirroring the error taxonomy of the code.
* The helper encoders of the arm64 `inst` module
  (`Imm12::maybe_from_u64`, `ImmLogic::maybe_from_u64`,
  `MoveWideConst::maybe_from_u64`, `ShiftOpShiftImm::maybe_from_shift`,
  `MemArg::reg_maybe_offset`) are not part of the files under study; they are
  carried as oracle fields of the lowering context, and the theorems hold for
  every choice of oracle.
-/

namespace Cretonne

namespace Arm64

/-- Register handle (virtual or real register number). -/
abbrev Reg := Nat

/-- The value types used by the arm64 lowering code (`ir::types`). -/
inductive Ty
  | B1 | B8 | B16 | B32 | B64 | B128
  | I8 | I16 | I32 | I64 | I128
  | F32 | F64
deriving DecidableEq, Repr

/-- Embedding of `ty_bits` from `isa/arm64/lower.rs`. -/
def ty_bits : Ty → Nat
  | .B1 => 1
  | .B8 | .I8 => 8
  | .B16 | .I16 => 16
  | .B32 | .I32 | .F32 => 32
  | .B64 | .I64 | .F64 => 64
  | .B128 | .I128 => 128

/-- `NarrowValueMode` from `isa/arm64/lower.rs`. -/
inductive NarrowValueMode
  | none
  | zeroExtend
  | signExtend
deriving DecidableEq, Repr

/-- Register-extend operators (arm64 `ExtendOp`). -/
inductive ExtendOp
  | SXTB | UXTB | SXTH | UXTH | SXTW | UXTW
deriving DecidableEq, Repr

/-- Shift operators (only `LSL` is produced by this lowering code). -/
inductive ShiftOp
  | LSL
deriving DecidableEq, Repr

/-- A shift operator together with a shift amount (`ShiftOpAndAmt`). -/
structure ShiftOpAndAmt where
  op : ShiftOp
  amt : Nat
deriving DecidableEq, Repr

/-- The ALU operations emitted by the lowering code under study. -/
inductive ALUOp
  | Add32 | Add64 | Sub32 | Sub64 | SubS32 | SubS64 | Orr64 | MAdd32 | MAdd64
deriving DecidableEq, Repr

/-- arm64 condition codes. -/
inductive Cond
  | Eq | Ne | Ge | Gt | Le | Lt | Hs | Hi | Ls | Lo | Vs | Vc
deriving DecidableEq, Repr

/-- Cranelift integer condition codes (`ir::condcodes::IntCC`). -/
inductive IntCC
  | Equal | NotEqual
  | SignedGreaterThanOrEqual | SignedGreaterThan
  | SignedLessThanOrEqual | SignedLessThan
  | UnsignedGreaterThanOrEqual | UnsignedGreaterThan
  | UnsignedLessThanOrEqual | UnsignedLessThan
  | Overflow | NotOverflow
deriving DecidableEq, Repr

/-- Embedding of `lower_condcode` from `isa/arm64/lower.rs`. -/
def lower_condcode : IntCC → Cond
  | .Equal => .Eq
  | .NotEqual => .Ne
  | .SignedGreaterThanOrEqual => .Ge
  | .SignedGreaterThan => .Gt
  | .SignedLessThanOrEqual => .Le
  | .SignedLessThan => .Lt
  | .UnsignedGreaterThanOrEqual => .Hs
  | .UnsignedGreaterThan => .Hi
  | .UnsignedLessThanOrEqual => .Ls
  | .UnsignedLessThan => .Lo
  | .Overflow => .Vs
  | .NotOverflow => .Vc

/-- Memory-operand forms (arm64 `MemArg`).  `label` stands for
`MemArg::Label(MemLabel::ConstantData(u64_constant v))`, carrying the pooled
constant. -/
inductive MemArg
  | Base (rn : Reg)
  | BaseSImm9 (rn : Reg) (simm : Int)
  | BaseUImm12Scaled (rn : Reg) (uimm : Nat)
  | BasePlusReg (ra : Reg) (rb : Reg)
  | label (constData : Nat)
deriving DecidableEq, Repr

/-- Branch targets of lowered machine branches. -/
inductive BranchTarget
  | Block (b : Nat)
deriving DecidableEq, Repr

/-- Kinds of lowered conditional branches (`CondBrKind`). -/
inductive CondBrKind
  | Zero (rt : Reg)
  | NotZero (rt : Reg)
  | Cond (c : Cond)
deriving DecidableEq, Repr

/-- The arm64 machine instructions that the lowering code under study can
emit. -/
inductive Inst
  | Extend (rd : Reg) (rn : Reg) (signed : Bool) (fromBits : Nat) (toBits : Nat)
  | MovZ (rd : Reg) (imm : Nat)
  | MovN (rd : Reg) (imm : Nat)
  | AluRRImm12 (aluOp : ALUOp) (rd : Reg) (rn : Reg) (imm12 : Nat)
  | AluRRImmLogic (aluOp : ALUOp) (rd : Reg) (rn : Reg) (imml : Nat)
  | AluRRR (aluOp : ALUOp) (rd : Reg) (rn : Reg) (rm : Reg)
  | AluRRRShift (aluOp : ALUOp) (rd : Reg) (rn : Reg) (rm : Reg) (shiftop : ShiftOpAndAmt)
  | AluRRRExtend (aluOp : ALUOp) (rd : Reg) (rn : Reg) (rm : Reg) (extendop : ExtendOp)
  | ULoad64 (rd : Reg) (mem : MemArg)
  | CondBr (taken : BranchTarget) (notTaken : BranchTarget) (kind : CondBrKind)
  | Jump (dest : BranchTarget)
deriving DecidableEq, Repr

/-- The IR opcodes inspected by the modelled arm64 lowering helpers. -/
inductive Opcode
  | Iconst | Null | Ishl | Uextend | Sextend
  | Jump | Fallthrough | Brz | Brnz | BrIcmp | Brif | Brff | BrTable | Trap
deriving DecidableEq, Repr

/-- The `InstructionData` variants that `output_to_const` inspects; every
other variant is collapsed into `other`. -/
inductive InstData
  | unaryImm (opcode : Opcode) (imm : Int)
  | unaryIeee32 (opcode : Opcode) (bits : Nat)
  | unaryIeee64 (opcode : Opcode) (bits : Nat)
  | other (opcode : Opcode)
deriving DecidableEq, Repr

/-- The opcode of an `InstData`. -/
def InstData.opcode : InstData → Opcode
  | .unaryImm op _ => op
  | .unaryIeee32 op _ => op
  | .unaryIeee64 op _ => op
  | .other op => op

/-- Rust's `i64 as u64` cast. -/
def toU64 (i : Int) : Nat := (i % (2 ^ 64 : Int)).toNat

/-- Rust's bitwise complement `!v` on `u64`. -/
def not64 (v : Nat) : Nat := v ^^^ (2 ^ 64 - 1)

/-- The arm64 zero register (`xzr`, register unit 31). -/
def zero_reg : Reg := 31

/-- `writable_zero_reg` — the zero register used as a discarding destination. -/
def writable_zero_reg : Reg := 31

/-- `InsnOutput` from `isa/arm64/lower.rs`: one output slot of an IR
instruction. -/
structure InsnOutput where
  insn : Nat
  output : Nat
deriving DecidableEq, Repr

/-- `InsnInput` from `isa/arm64/lower.rs`: one input slot of an IR
instruction. -/
structure InsnInput where
  insn : Nat
  input : Nat
deriving DecidableEq, Repr

/-- Modelled from the spec: the description, for one instruction input, of the
producing instruction of the consumed SSA value.  The lowering-context
implementation matching this arm64 backend (the `LowerCtx` with `merged`,
`retval` and the two-argument `tmp`) is not among the source files — only an
older snapshot of `machinst/lower.rs` is — so its `input_inst` query is
modelled from the spec: the query reports a producer only when the producer
sits in the same basic block as the consumer and its result has a single use
overall. -/
structure SrcInfo where
  inst : Nat
  resultIdx : Nat
  sameBlock : Bool
  uses : Nat
deriving DecidableEq, Repr

/-- The lowering context seen by the arm64 backend.  IR queries are function
fields; `emitted` is the machine-instruction output buffer; `mergedList`
records the producers the backend reported as merged; `nextTmp` feeds
`ctx.tmp`.  The `maybe*`/`regMaybeOffset` fields are the immediate-encoder
oracles described in the module docstring. -/
structure Ctx where
  dataF : Nat → InstData
  srcInfo : Nat → Nat → Option SrcInfo
  numInputsF : Nat → Nat
  numOutputsF : Nat → Nat
  inputTyF : Nat → Nat → Ty
  outputTyF : Nat → Nat → Ty
  inputRegF : Nat → Nat → Reg
  outputRegF : Nat → Nat → Reg
  condcodeF : Nat → Option IntCC
  maybeShiftImm : Nat → Option Nat
  maybeImm12 : Nat → Option Nat
  maybeImmLogic : Nat → Option Nat
  maybeMoveWide : Nat → Option Nat
  regMaybeOffset : Reg → Int → Ty → Option MemArg
  emitted : List Inst
  mergedList : List Nat
  nextTmp : Nat

/-- `ctx.emit(inst)`: append one machine instruction to the output buffer. -/
def Ctx.emit (c : Ctx) (i : Inst) : Ctx :=
  { c with emitted := c.emitted ++ [i] }

/-- `ctx.merged(insn)`: record that `insn` was folded into its consumer. -/
def Ctx.merged (c : Ctx) (insn : Nat) : Ctx :=
  { c with mergedList := c.mergedList ++ [insn] }

/-- `ctx.tmp(..)`: allocate a fresh temporary virtual register. -/
def Ctx.tmp (c : Ctx) : Reg × Ctx :=
  (c.nextTmp, { c with nextTmp := c.nextTmp + 1 })

/-- Modelled from the spec (see `SrcInfo`): `ctx.input_inst(insn, idx)`
reports the producing instruction and result index only for a same-block,
single-use producer. -/
def Ctx.input_inst (c : Ctx) (insn idx : Nat) : Option (Nat × Nat) :=
  match c.srcInfo insn idx with
  | some s => if s.sameBlock ∧ s.uses = 1 then some (s.inst, s.resultIdx) else none
  | none => none

/-- `InsnInputSource` from `isa/arm64/lower.rs`. -/
inductive InsnInputSource
  | Output (out : InsnOutput)
  | Reg (r : Reg)
deriving DecidableEq, Repr

/-- `InsnInputSource::as_output`. -/
def InsnInputSource.as_output : InsnInputSource → Option InsnOutput
  | .Output o => some o
  | .Reg _ => none

/-- Embedding of `input_source`: convert an instruction input to a producing
instruction's output if possible, or a register otherwise. -/
def input_source (c : Ctx) (input : InsnInput) : InsnInputSource :=
  match c.input_inst input.insn input.input with
  | some (inputInst, resultNum) => .Output ⟨inputInst, resultNum⟩
  | none => .Reg (c.inputRegF input.insn input.input)

/-- Embedding of `input_to_reg`: lower an instruction input to a register,
extending it according to `narrow_mode` and the input's type.  In the source,
a value of fewer than 32 bits is extended (when an extend is requested) into
32 bits; wider values are returned unchanged. -/
def input_to_reg (c : Ctx) (input : InsnInput) (narrow_mode : NarrowValueMode) :
    Reg × Ctx :=
  let ty := c.inputTyF input.insn input.input
  let from_bits := ty_bits ty
  let to_bits := if from_bits < 32 then 32 else 64
  let raw_reg := c.inputRegF input.insn input.input
  match narrow_mode with
  | .none => (raw_reg, c)
  | .zeroExtend =>
    if from_bits < 32 then
      (raw_reg, c.emit (.Extend raw_reg raw_reg false from_bits to_bits))
    else
      (raw_reg, c)
  | .signExtend =>
    if from_bits < 32 then
      (raw_reg, c.emit (.Extend raw_reg raw_reg true from_bits to_bits))
    else
      (raw_reg, c)

/-- Embedding of `output_to_reg`. -/
def output_to_reg (c : Ctx) (out : InsnOutput) : Reg :=
  c.outputRegF out.insn out.output

/-- Embedding of `lower_constant` from `isa/arm64/lower.rs`: materialize a
64-bit constant into `rd`, preferring `MOVZ`, then `MOVN` on the complement,
then an `ORR`-with-zero-register logical immediate, then a constant-pool
load. -/
def lower_constant (c : Ctx) (rd : Reg) (value : Nat) : Ctx :=
  match c.maybeMoveWide value with
  | some imm => c.emit (.MovZ rd imm)
  | none =>
    match c.maybeMoveWide (not64 value) with
    | some imm => c.emit (.MovN rd imm)
    | none =>
      match c.maybeImmLogic value with
      | some imml => c.emit (.AluRRImmLogic .Orr64 rd zero_reg imml)
      | none => c.emit (.ULoad64 rd (.label value))

/-- The fatal-abort kinds of the lowering code: `assertFailed` for `assert!`
failures, `unimplemented` for `unimplemented!()`, and `panicked` for
`unreachable!`/`panic!`/`unwrap` failures. -/
inductive Fatal
  | assertFailed
  | unimplemented
  | panicked
deriving DecidableEq, Repr

/-- Embedding of `get_input`: refer to the `num`th input of the instruction
producing `output`; the guard models the `assert!` on the input index. -/
def get_input (c : Ctx) (output : InsnOutput) (num : Nat) : Option InsnInput :=
  if num ≤ c.numInputsF output.insn then some ⟨output.insn, num⟩ else none

/-- Embedding of `output_to_const`: lower an instruction output to a 64-bit
constant, if possible. -/
def output_to_const (c : Ctx) (out : InsnOutput) : Option Nat :=
  if out.output > 0 then none
  else
    let inst_data := c.dataF out.insn
    if inst_data.opcode = .Null then some 0
    else
      match inst_data with
      | .unaryImm _ imm => some (toU64 imm)
      | .unaryIeee32 _ bits => some bits
      | .unaryIeee64 _ bits => some bits
      | .other _ => none

/-- Embedding of `output_to_shiftimm`: lower an instruction output to a
constant register-shift amount, if possible (through the
`ShiftOpShiftImm::maybe_from_shift` oracle). -/
def output_to_shiftimm (c : Ctx) (out : InsnOutput) : Option Nat :=
  (output_to_const c out).bind c.maybeShiftImm

/-- `ResultRSE` from `isa/arm64/lower.rs`: register, register-shift or
register-extend operand. -/
inductive ResultRSE
  | Reg (r : Reg)
  | RegShift (r : Reg) (s : ShiftOpAndAmt)
  | RegExtend (r : Reg) (e : ExtendOp)
deriving DecidableEq, Repr

/-- `ResultRSEImm12` from `isa/arm64/lower.rs`. -/
inductive ResultRSEImm12
  | Reg (r : Reg)
  | RegShift (r : Reg) (s : ShiftOpAndAmt)
  | RegExtend (r : Reg) (e : ExtendOp)
  | Imm12 (i : Nat)
deriving DecidableEq, Repr

/-- `ResultRSEImm12::from_rse`. -/
def ResultRSEImm12.from_rse : ResultRSE → ResultRSEImm12
  | .Reg r => .Reg r
  | .RegShift r s => .RegShift r s
  | .RegExtend r e => .RegExtend r e

/-- `ResultRSEImmLogic` from `isa/arm64/lower.rs`. -/
inductive ResultRSEImmLogic
  | Reg (r : Reg)
  | RegShift (r : Reg) (s : ShiftOpAndAmt)
  | RegExtend (r : Reg) (e : ExtendOp)
  | ImmLogic (i : Nat)
deriving DecidableEq, Repr

/-- `ResultRSEImmLogic::from_rse`. -/
def ResultRSEImmLogic.from_rse : ResultRSE → ResultRSEImmLogic
  | .Reg r => .Reg r
  | .RegShift r s => .RegShift r s
  | .RegExtend r e => .RegExtend r e

/-- The extend-operator table of `output_to_rse`'s narrow-value case (the
`match (narrow_mode, out_bits)` reaching `unreachable!` on any other
combination). -/
def narrow_extend_op : NarrowValueMode → Nat → Option ExtendOp
  | .signExtend, 1 => some .SXTB
  | .zeroExtend, 1 => some .UXTB
  | .signExtend, 8 => some .SXTB
  | .zeroExtend, 8 => some .UXTB
  | .signExtend, 16 => some .SXTH
  | .zeroExtend, 16 => some .UXTH
  | _, _ => none

/-- The extend-operator table of `output_to_rse`'s `Uextend`/`Sextend` case
(the `match (sign_extend, inner_bits)` reaching `unreachable!` otherwise). -/
def uextend_extend_op : Bool → Nat → Option ExtendOp
  | true, 1 => some .SXTB
  | false, 1 => some .UXTB
  | true, 8 => some .SXTB
  | false, 8 => some .UXTB
  | true, 16 => some .SXTH
  | false, 16 => some .UXTH
  | true, 32 => some .SXTW
  | false, 32 => some .UXTW
  | _, _ => none

/-- The tail of `output_to_rse` after the shift-folding attempt: the
`Uextend`/`Sextend` register-extend fold, then the plain-register fallback.
Split out because the source reaches this code both when the opcode is not
`Ishl` and when the `Ishl` immediate-shift fold does not apply. -/
def output_to_rse_fallback (c : Ctx) (out : InsnOutput) (_narrow_mode : NarrowValueMode) :
    Except Fatal (ResultRSE × Ctx) :=
  let insn := out.insn
  let op := (c.dataF insn).opcode
  let out_ty := c.outputTyF insn out.output
  let out_bits := ty_bits out_ty
  if op = .Uextend ∨ op = .Sextend then
    if ¬ (out_bits = 32 ∨ out_bits = 64) then .error .assertFailed
    else
      let sign_extend := op = Opcode.Sextend
      match get_input c out 0 with
      | none => .error .assertFailed
      | some extendee =>
        let inner_ty := c.inputTyF extendee.insn extendee.input
        let inner_bits := ty_bits inner_ty
        if ¬ (inner_bits < out_bits) then .error .assertFailed
        else
          match uextend_extend_op (decide sign_extend) inner_bits with
          | none => .error .panicked
          | some extendop =>
            let r1 := input_to_reg c extendee .none
            .ok (.RegExtend r1.1 extendop, r1.2.merged insn)
  else
    .ok (.Reg (output_to_reg c out), c)

/-- Embedding of `output_to_rse`: lower an instruction output to a register,
register-shift or register-extend operand, folding an `ishl`-by-constant or a
`uextend`/`sextend` producer into the operand where the source does. -/
def output_to_rse (c : Ctx) (out : InsnOutput) (narrow_mode : NarrowValueMode) :
    Except Fatal (ResultRSE × Ctx) :=
  let insn := out.insn
  if ¬ (out.output ≤ c.numOutputsF insn) then .error .assertFailed
  else
    let op := (c.dataF insn).opcode
    let out_ty := c.outputTyF insn out.output
    let out_bits := ty_bits out_ty
    if out_bits < 32 ∧ narrow_mode ≠ .none then
      let reg := output_to_reg c out
      match narrow_extend_op narrow_mode out_bits with
      | some extendop => .ok (.RegExtend reg extendop, c)
      | none => .error .panicked
    else if op = .Ishl then
      match get_input c out 0, get_input c out 1 with
      | some shiftee, some shift_amt =>
        match (input_source c shift_amt).as_output with
        | some shift_amt_out =>
          match output_to_shiftimm c shift_amt_out with
          | some shiftimm =>
            let r1 := input_to_reg c shiftee narrow_mode
            let c2 := (r1.2.merged insn).merged shift_amt_out.insn
            .ok (.RegShift r1.1 ⟨.LSL, shiftimm⟩, c2)
          | none => output_to_rse_fallback c out narrow_mode
        | none => output_to_rse_fallback c out narrow_mode
      | _, _ => .error .assertFailed
    else
      output_to_rse_fallback c out narrow_mode

/-- Embedding of `output_to_rse_imm12`. -/
def output_to_rse_imm12 (c : Ctx) (out : InsnOutput) (narrow_mode : NarrowValueMode) :
    Except Fatal (ResultRSEImm12 × Ctx) :=
  match output_to_const c out with
  | some imm_value =>
    match c.maybeImm12 imm_value with
    | some i => .ok (.Imm12 i, c.merged out.insn)
    | none =>
      match output_to_rse c out narrow_mode with
      | .ok (r, c') => .ok (.from_rse r, c')
      | .error e => .error e
  | none =>
    match output_to_rse c out narrow_mode with
    | .ok (r, c') => .ok (.from_rse r, c')
    | .error e => .error e

/-- Embedding of `input_to_rse`. -/
def input_to_rse (c : Ctx) (input : InsnInput) (narrow_mode : NarrowValueMode) :
    Except Fatal (ResultRSE × Ctx) :=
  match input_source c input with
  | .Output out => output_to_rse c out narrow_mode
  | .Reg reg => .ok (.Reg reg, c)

/-- Embedding of `input_to_rse_imm12`. -/
def input_to_rse_imm12 (c : Ctx) (input : InsnInput) (narrow_mode : NarrowValueMode) :
    Except Fatal (ResultRSEImm12 × Ctx) :=
  match input_source c input with
  | .Output out => output_to_rse_imm12 c out narrow_mode
  | .Reg reg => .ok (.Reg reg, c)

/-- The general fallback of `lower_address`: materialize the offset into a
fresh temporary with `lower_constant`, then accumulate every addend into it
with explicit `Add64` instructions, yielding a base-register-only address. -/
def lower_address_general (c : Ctx) (addends : List InsnInput) (offset : Int) :
    MemArg × Ctx :=
  let addr := c.tmp.1
  let c1 := c.tmp.2
  let c2 := lower_constant c1 addr (toU64 offset)
  let c3 := addends.foldl
    (fun cc addend =>
      (input_to_reg cc addend .zeroExtend).2.emit
        (.AluRRR .Add64 addr addr (input_to_reg cc addend .zeroExtend).1)) c2
  (.Base addr, c3)

/-- Embedding of `lower_address` from `isa/arm64/lower.rs`: one addend with a
fitting offset lowers to the `reg_maybe_offset` form; two addends and a zero
offset lower to base-plus-register; anything else falls back to explicit
adds. -/
def lower_address (c : Ctx) (elem_ty : Ty) (addends : List InsnInput) (offset : Int) :
    MemArg × Ctx :=
  match addends with
  | [a0] =>
    let r1 := input_to_reg c a0 .zeroExtend
    match r1.2.regMaybeOffset r1.1 offset elem_ty with
    | some memarg => (memarg, r1.2)
    | none => lower_address_general r1.2 [a0] offset
  | [a0, a1] =>
    if offset = 0 then
      let r1 := input_to_reg c a0 .zeroExtend
      let r2 := input_to_reg r1.2 a1 .zeroExtend
      (.BasePlusReg r1.1 r2.1, r2.2)
    else
      lower_address_general c [a0, a1] offset
  | _ => lower_address_general c addends offset

/-- Embedding of `choose_32_64`; 128-bit types hit the `panic!`. -/
def choose_32_64 (ty : Ty) (op32 op64 : ALUOp) : Except Fatal ALUOp :=
  let bits := ty_bits ty
  if bits ≤ 32 then .ok op32
  else if bits = 64 then .ok op64
  else .error .panicked

/-- The `not_taken` target computation of the two-branch case of
`lower_branch_group` (an out-of-range `targets[1]` or a missing fallthrough
block is a panic). -/
def branch_not_taken (op1 : Opcode) (targets : List Nat) (fallthrough : Option Nat) :
    Except Fatal BranchTarget :=
  match op1 with
  | .Jump =>
    match targets.get? 1 with
    | some t1 => .ok (.Block t1)
    | none => .error .panicked
  | .Fallthrough =>
    match fallthrough with
    | some ft => .ok (.Block ft)
    | none => .error .panicked
  | _ => .error .panicked

/-- Is an instruction an add?  (Used to state that address lowering emits or
does not emit add instructions.) -/
def Inst.isAdd : Inst → Bool
  | .AluRRR op _ _ _ => op == .Add32 || op == .Add64
  | .AluRRImm12 op _ _ _ => op == .Add32 || op == .Add64
  | .AluRRRShift op _ _ _ _ => op == .Add32 || op == .Add64
  | .AluRRRExtend op _ _ _ _ => op == .Add32 || op == .Add64
  | _ => false

/-- Embedding of `lower_branch_group` from `isa/arm64/lower.rs`. -/
def lower_branch_group (c : Ctx) (branches : List Nat) (targets : List Nat)
    (fallthrough : Option Nat) : Except Fatal Ctx :=
  if branches.length > 2 then .error .assertFailed
  else
    match branches with
    | [b0, b1] =>
      let op0 := (c.dataF b0).opcode
      let op1 := (c.dataF b1).opcode
      if ¬ (op1 = .Jump ∨ op1 = .Fallthrough) then .error .assertFailed
      else
        match targets.get? 0 with
        | none => .error .panicked
        | some t0 =>
          let taken := BranchTarget.Block t0
          match branch_not_taken op1 targets fallthrough with
          | .error e => .error e
          | .ok not_taken =>
            match op0 with
            | .Brz =>
              let r1 := input_to_reg c ⟨b0, 0⟩ .zeroExtend
              .ok (r1.2.emit (.CondBr taken not_taken (.Zero r1.1)))
            | .Brnz =>
              let r1 := input_to_reg c ⟨b0, 0⟩ .zeroExtend
              .ok (r1.2.emit (.CondBr taken not_taken (.NotZero r1.1)))
            | .BrIcmp =>
              match c.condcodeF b0 with
              | none => .error .panicked
              | some cc =>
                let cond := lower_condcode cc
                let r1 := input_to_reg c ⟨b0, 0⟩ .signExtend
                let r2 := input_to_reg r1.2 ⟨b0, 1⟩ .signExtend
                let ty := r2.2.inputTyF b0 0
                match choose_32_64 ty .SubS32 .SubS64 with
                | .error e => .error e
                | .ok alu_op =>
                  .ok ((r2.2.emit (.AluRRR alu_op writable_zero_reg r1.1 r2.1)).emit
                    (.CondBr taken not_taken (.Cond cond)))
            | _ => .error .unimplemented
    | [b0] =>
      let op := (c.dataF b0).opcode
      match op with
      | .Jump =>
        match targets.get? 0 with
        | none => .error .panicked
        | some t0 => .ok (c.emit (.Jump (.Block t0)))
      | .Fallthrough =>
        match targets.get? 0 with
        | none => .error .panicked
        | some t0 => .ok (c.emit (.Jump (.Block t0)))
      | .Trap => .error .unimplemented
      | _ => .error .panicked
    | _ => .error .assertFailed

/-- A concrete lowering context used for evaluation witnesses: all oracles
decline, every input is an `I64` in register 1. -/
def defaultCtx : Ctx :=
  { dataF := fun _ => .other .Null
    srcInfo := fun _ _ => none
    numInputsF := fun _ => 2
    numOutputsF := fun _ => 1
    inputTyF := fun _ _ => .I64
    outputTyF := fun _ _ => .I64
    inputRegF := fun _ _ => 1
    outputRegF := fun _ _ => 2
    condcodeF := fun _ => none
    maybeShiftImm := fun _ => none
    maybeImm12 := fun _ => none
    maybeImmLogic := fun _ => none
    maybeMoveWide := fun _ => none
    regMaybeOffset := fun _ _ _ => none
    emitted := []
    mergedList := []
    nextTmp := 100 }

/-- A context whose every input has type `I32` (32 bits, narrower than the
64-bit machine word). -/
def ctx32 : Ctx :=
  { defaultCtx with inputTyF := fun _ _ => .I32 }

/-- A context whose move-wide-constant oracle accepts 16-bit values. -/
def ctxMovz : Ctx :=
  { defaultCtx with maybeMoveWide := fun x => if x < 65536 then some x else none }

/-- A context whose logical-immediate oracle accepts everything. -/
def ctxLogic : Ctx :=
  { defaultCtx with maybeImmLogic := fun x => some x }

/-- A context whose addressing-offset oracle always produces a
base-plus-signed-immediate form. -/
def ctxMem : Ctx :=
  { defaultCtx with regMaybeOffset := fun r o _ => some (.BaseSImm9 r o) }

/-- A context in which instruction 0 is a `brif` and instruction 1 a
`jump`. -/
def ctxBrif : Ctx :=
  { defaultCtx with dataF := fun i => if i = 0 then .other .Brif else .other .Jump }

/-- A context in which instruction 0 is a `brz` and instruction 1 a
`jump`. -/
def ctxBrz : Ctx :=
  { defaultCtx with dataF := fun i => if i = 0 then .other .Brz else .other .Jump }

/-- A context in which instruction 0 is a `br_icmp` comparing two `I64`
values for equality and instruction 1 a `jump`. -/
def ctxBrIcmp64 : Ctx :=
  { defaultCtx with
    dataF := fun i => if i = 0 then .other .BrIcmp else .other .Jump
    condcodeF := fun _ => some .Equal }

/-- A context in which instruction 0 is a `brff` and instruction 1 a
`jump`. -/
def ctxBrff : Ctx :=
  { defaultCtx with dataF := fun i => if i = 0 then .other .Brff else .other .Jump }

end Arm64

namespace MachLower

/-- `MachReg` as used by the `value_regs` table of `machinst/lower.rs`:
either still undefined, or a virtual register number. -/
inductive MachReg
  | undefined
  | virt (n : Nat)
deriving DecidableEq, Repr

/-- The driver state relevant to use counts: the `num_uses` side table of
`Lower`. -/
structure LowSt where
  numUses : Nat → Nat

/-- Embedding of `LowerCtx::dec_use` from `machinst/lower.rs`: decrement the
use count of an instruction; decrementing a zero count is the
`assert!(self.num_uses[ir_inst] > 0)` failure, modelled as `none`. -/
def dec_use (s : LowSt) (irInst : Nat) : Option LowSt :=
  if s.numUses irInst > 0 then
    some ⟨fun j => if j = irInst then s.numUses irInst - 1 else s.numUses j⟩
  else
    none

/-- One block's instruction walk of `Lower::lower` (already in the reverse
order the driver uses): each instruction with a positive use count is handed
to the backend, every other instruction is skipped.  The trace records, for
each instruction actually lowered, its use count at the moment the backend
was invoked. -/
def lowerInsts (backend : LowSt → Nat → LowSt) :
    LowSt × List (Nat × Nat) → List Nat → LowSt × List (Nat × Nat)
  | (s, tr), [] => (s, tr)
  | (s, tr), i :: rest =>
    if s.numUses i > 0 then
      lowerInsts backend (backend s i, tr ++ [(i, s.numUses i)]) rest
    else
      lowerInsts backend (s, tr) rest

/-- Embedding of `Lower::lower`: iterate the blocks in reverse order and the
instructions of each block in reverse order, skipping zero-use-count
instructions.  The backend is an arbitrary state transformer (it may emit
instructions and decrement use counts); the returned trace lists the lowered
instructions with their visit-time use counts. -/
def Lower_lower (backend : LowSt → Nat → LowSt) (ebbs : List (List Nat)) (s0 : LowSt) :
    LowSt × List (Nat × Nat) :=
  ebbs.reverse.foldl (fun st ebb => lowerInsts backend st ebb.reverse) (s0, [])

/-- Instruction operands and results, for the construction scan of
`Lower::new`. -/
structure InstDataL where
  args : List Nat
  results : List Nat
deriving DecidableEq, Repr

/-- One extended basic block: parameters plus instructions. -/
structure EbbL where
  params : List Nat
  insts : List InstDataL
deriving DecidableEq, Repr

/-- An IR function as scanned by `Lower::new`: its blocks in layout order. -/
structure FuncL where
  ebbs : List EbbL
deriving DecidableEq, Repr

/-- Embedding of `alloc_vreg` from `machinst/lower.rs`: assign the next fresh
virtual register to `v` if it has none yet, otherwise leave the table and the
counter unchanged. -/
def alloc_vreg : (Nat → MachReg) × Nat → Nat → (Nat → MachReg) × Nat
  | (vr, next), v =>
    match vr v with
    | .undefined => (fun x => if x = v then .virt next else vr x, next + 1)
    | _ => (vr, next)

/-- The sequence of SSA-value occurrences scanned by `Lower::new`, in program
order: for each block its parameters, then for each instruction its
arguments followed by its results. -/
def scanValues (f : FuncL) : List Nat :=
  (f.ebbs.map (fun e =>
    e.params ++ (e.insts.map (fun i => i.args ++ i.results)).flatten)).flatten

/-- Embedding of the `value_regs` construction loop of `Lower::new`: fold
`alloc_vreg` over every SSA-value occurrence, starting from the
all-undefined table and virtual-register counter `0`.  Returns the finished
`value_regs` table together with `next_vreg`. -/
def Lower_new (f : FuncL) : (Nat → MachReg) × Nat :=
  (scanValues f).foldl alloc_vreg (fun _ => .undefined, 0)

/-- The reads used by the `input`/`output`/`ebb_param` queries of the
lowering context: a query for a value is a lookup in the finished
`value_regs` table. -/
def value_reg (m : (Nat → MachReg) × Nat) (v : Nat) : MachReg := m.1 v

/-- One step of collecting first occurrences. -/
def occStep (acc : List Nat) (v : Nat) : List Nat :=
  if v ∈ acc then acc else acc ++ [v]

/-- First occurrences of a list, in order (used to state the first-use-order
property of `Lower_new`). -/
def firstOccs (l : List Nat) : List Nat :=
  l.foldl occStep []

/-- Position of the first occurrence of a value in a list. -/
def idxOf (v : Nat) : List Nat → Nat
  | [] => 0
  | x :: xs => if x = v then 0 else idxOf v xs + 1

/-- The `value_regs` table built from first occurrences of a scan list:
members get their first-occurrence index as virtual register, everything
else is undefined. -/
def mapOf (acc : List Nat) : Nat → MachReg :=
  fun v => if v ∈ acc then .virt (idxOf v acc) else .undefined

/-- A two-value example function: one block with parameter `0` and a single
instruction consuming `0` and producing `1`. -/
def funcEx : FuncL :=
  ⟨[⟨[0], [⟨[0], [1]⟩]⟩]⟩

end MachLower

namespace AltAlloc

/-- The abort kinds the alt allocator can signal: an ordinary
invariant-violation abort (`assert!`/`debug_assert!`/`expect`), or the
explicit `unimplemented!` not-yet-implemented abort. -/
inductive AbortKind
  | assertionFailure
  | notYetImplemented
deriving DecidableEq, Repr

/-- Embedding of `AAState::run` from `regalloc/alt_alloc.rs`.  The run prints
optional diagnostics (pure observation, omitted), performs branch splitting,
makes phis explicit, and then always aborts with
`unimplemented!("computing live values")`.  Branch splitting is an external
collaborator and `make_phis_explicit` may abort on malformed input, so both
stages are parameters: every theorem about `AAState_run` holds for every
choice of the two stage functions. -/
def AAState_run {α : Type} (branchSplitting : α → Except AbortKind α)
    (makePhisExplicit : α → Except AbortKind α) (f : α) : Except AbortKind Unit :=
  match branchSplitting f with
  | .error e => .error e
  | .ok f1 =>
    match makePhisExplicit f1 with
    | .error e => .error e
    | .ok _ => .error .notYetImplemented

end AltAlloc

namespace MinAlloc

/-- SSA value handle. -/
abbrev Value := Nat

/-- Stack-slot handle. -/
abbrev Slot := Nat

/-- Register-unit handle. -/
abbrev RegU := Nat

/-- `ValueLoc`: the resolved storage of a value. -/
inductive ValueLoc
  | stack (ss : Slot)
  | reg (r : RegU)
  | unassigned
deriving DecidableEq, Repr

/-- The fill/spill instructions emitted by the minimal allocator's
parallel-move code.  `fill temp src` creates value `temp` (located in a
register) holding the contents of `src` (located in a stack slot);
`spill dest src` creates value `dest` (located in a stack slot) holding the
contents of `src` (located in a register). -/
inductive MoveInst
  | fill (temp : Value) (src : Value)
  | spill (dest : Value) (src : Value)
deriving DecidableEq, Repr

/-- The allocator state touched by `move_ebb_arguments`: the per-value
location table, the fresh-value and fresh-stack-slot counters, the free
registers of the (single modelled) register class, and the emitted
instructions. -/
structure AState where
  locations : Value → ValueLoc
  nextValue : Value
  nextSlot : Slot
  freeRegs : List RegU
  emitted : List MoveInst

/-- Embedding of `fill_temp_register`: create a new value, emit a fill of
`val` into it, take a register from the pool, and locate the new value in
that register.  An empty pool is the `regs.take` panic
(`expect("no available register")`), modelled as `none`. -/
def fill_temp_register (st : AState) (val : Value) : Option (Value × RegU × AState) :=
  match st.freeRegs with
  | [] => none
  | r :: rest =>
    let temp := st.nextValue
    some (temp, r,
      { locations := fun v => if v = temp then .reg r else st.locations v
        nextValue := temp + 1
        nextSlot := st.nextSlot
        freeRegs := rest
        emitted := st.emitted ++ [.fill temp val] })

/-- The stack slot of a value, when it has one. -/
def slotOf (st : AState) (v : Value) : Option Slot :=
  match st.locations v with
  | .stack ss => some ss
  | _ => none

/-- The first loop of `move_ebb_arguments`: walk the `(index, arg, target)`
triples; skip an argument already sharing its target's slot; route an
argument whose slot also occurs among the target slots through a temporary
register and a brand-new stack slot; keep every other argument as is.
Returns the updated state and the update list consumed by the second loop.
A non-stack argument or target location is the source's `unreachable!`,
modelled as `none`. -/
def pass1 (targetSlots : List Slot) :
    AState → List (Nat × Value × Value) → Option (AState × List (Nat × Value × Value))
  | st, [] => some (st, [])
  | st, (k, arg, targetArg) :: rest =>
    match st.locations arg, st.locations targetArg with
    | .stack argSS, .stack targetSS =>
      if argSS = targetSS then
        pass1 targetSlots st rest
      else if argSS ∈ targetSlots then
        match fill_temp_register st arg with
        | none => none
        | some (temp, r, st1) =>
          let theTemp := st1.nextValue
          let ss := st1.nextSlot
          let st2 : AState :=
            { locations := fun v => if v = theTemp then .stack ss else st1.locations v
              nextValue := theTemp + 1
              nextSlot := ss + 1
              freeRegs := r :: st1.freeRegs
              emitted := st1.emitted ++ [.spill theTemp temp] }
          match pass1 targetSlots st2 rest with
          | none => none
          | some (stR, ups) => some (stR, (k, theTemp, targetArg) :: ups)
      else
        match pass1 targetSlots st rest with
        | none => none
        | some (stR, ups) => some (stR, (k, arg, targetArg) :: ups)
    | _, _ => none

/-- The second loop of `move_ebb_arguments`: for every update, fill the
(possibly re-routed) source into a temporary register and spill it into a new
value placed at the target argument's location. -/
def pass2 : AState → List (Nat × Value × Value) → Option AState
  | st, [] => some st
  | st, (_k, arg, targetArg) :: rest =>
    match fill_temp_register st arg with
    | none => none
    | some (temp, r, st1) =>
      let dest := st1.nextValue
      let st2 : AState :=
        { locations := fun v => if v = dest then st1.locations targetArg else st1.locations v
          nextValue := dest + 1
          nextSlot := st1.nextSlot
          freeRegs := r :: st1.freeRegs
          emitted := st1.emitted ++ [.spill dest temp] }
      pass2 st2 rest

/-- Embedding of `move_ebb_arguments` from `regalloc/alt_alloc.rs`: collect
the target parameters' stack slots, pair each jump argument with its target
parameter, then run the two loops above. -/
def move_ebb_arguments (st : AState) (targetParams : List Value) (instArgs : List Value) :
    Option AState :=
  match targetParams.mapM (slotOf st) with
  | none => none
  | some targetSlots =>
    let arginfo := (instArgs.zip targetParams).enum.map (fun p => (p.1, p.2.1, p.2.2))
    match pass1 targetSlots st arginfo with
    | none => none
    | some (st1, updates) => pass2 st1 updates

/-- Machine state for executing the emitted fill/spill list: stack-slot and
register contents. -/
structure Machine where
  mem : Slot → Nat
  regs : RegU → Nat

/-- Execute one fill or spill, resolving the operand values through the
location table.  (Instructions whose operands are not a register/slot pair do
not occur in emitted code; they leave the machine unchanged.) -/
def execInst (loc : Value → ValueLoc) (m : Machine) : MoveInst → Machine
  | .fill temp src =>
    match loc temp, loc src with
    | .reg r, .stack ss => { m with regs := fun x => if x = r then m.mem ss else m.regs x }
    | _, _ => m
  | .spill dest src =>
    match loc dest, loc src with
    | .stack ss, .reg r => { m with mem := fun x => if x = ss then m.regs r else m.mem x }
    | _, _ => m

/-- Execute a list of fills and spills. -/
def exec (loc : Value → ValueLoc) (m : Machine) (l : List MoveInst) : Machine :=
  l.foldl (execInst loc) m

/-- Apply a list of slot-to-slot copies `(src, dst)` in order. -/
def applyCopies (cs : List (Slot × Slot)) (m : Slot → Nat) : Slot → Nat :=
  cs.foldl (fun mm c => fun x => if x = c.2 then mm c.1 else mm x) m

/-- The slot-level shape of the first loop: from the `(source-slot,
target-slot)` pairs and the fresh-slot counter, the temporary-routing copies
of the first loop and the copies performed by the second loop. -/
def phase1Spec (targetSlots : List Slot) :
    Nat → List (Slot × Slot) → List (Slot × Slot) × List (Slot × Slot)
  | _, [] => ([], [])
  | fresh, (s, t) :: rest =>
    if s = t then phase1Spec targetSlots fresh rest
    else if s ∈ targetSlots then
      ((s, fresh) :: (phase1Spec targetSlots (fresh + 1) rest).1,
       (fresh, t) :: (phase1Spec targetSlots (fresh + 1) rest).2)
    else
      ((phase1Spec targetSlots fresh rest).1,
       (s, t) :: (phase1Spec targetSlots fresh rest).2)

/-- The stack slot of a value under a location map, defaulting to `0` (used
only to state slot-level facts about values known to be on the stack). -/
def slotD (loc : Value → ValueLoc) (v : Value) : Slot :=
  match loc v with
  | .stack ss => ss
  | _ => 0

/-- The concrete swap scenario of the spec: jump arguments are values `0`
(slot `0`, holding `a`) and `1` (slot `1`, holding `b`); the target
parameters are values `2` (slot `1`) and `3` (slot `0`), i.e. the target
expects the two slots swapped. -/
def swapSt : AState :=
  { locations := fun v =>
      if v = 0 then .stack 0
      else if v = 1 then .stack 1
      else if v = 2 then .stack 1
      else if v = 3 then .stack 0
      else .unassigned
    nextValue := 4
    nextSlot := 2
    freeRegs := [0]
    emitted := [] }

/-- Initial memory for the swap scenario: slot `0` holds `10` (the value
`a`), slot `1` holds `20` (the value `b`). -/
def swapMachine : Machine :=
  { mem := fun s => if s = 0 then 10 else if s = 1 then 20 else 0
    regs := fun _ => 0 }

end MinAlloc

/-! ## Theorems -/

namespace AltAlloc

/-- C10: running the alt allocator never returns normally — whatever the
branch-splitting and phi-explication stages do, `AAState_run` produces no
`ok` result; and whenever both stages succeed, the run aborts with the
explicit, distinguishable not-yet-implemented signal (never the ordinary
invariant-violation abort for this cause, and never a silent success). -/
theorem run_never_returns_normally {α : Type} (bs phis : α → Except AbortKind α) (f : α) :
    (∀ u, AAState_run bs phis f ≠ .ok u) ∧
    (∀ f1 f2, bs f = .ok f1 → phis f1 = .ok f2 →
      AAState_run bs phis f = .error .notYetImplemented) := by
  constructor
  · intro u h
    unfold AAState_run at h
    cases hbs : bs f with
    | error e => simp [hbs] at h
    | ok f1 =>
      simp only [hbs] at h
      cases hph : phis f1 with
      | error e => simp [hph] at h
      | ok f2 => simp [hph] at h
  · intro f1 f2 h1 h2
    simp [AAState_run, h1, h2]

/-- Witness for C10 at concrete stage functions and input. -/
theorem run_never_returns_normally_witness :
    AAState_run (fun n : Nat => .ok n) (fun n : Nat => .ok n) 0 =
      .error .notYetImplemented :=
  (run_never_returns_normally (fun n : Nat => .ok n) (fun n : Nat => .ok n) 0).2 0 0 rfl rfl

end AltAlloc

namespace Arm64

/-- C4: `lower_constant` chooses, in this fixed order: `MOVZ` when the value
fits the move-wide encoding; else `MOVN` when the value's bitwise complement
fits it; else a logical-immediate `ORR` with the zero register; else a load
of the value from a pooled constant — so a value representable in an earlier
form is never materialized via a later fallback. -/
theorem lower_constant_choice (c : Ctx) (rd : Reg) (v : Nat) :
    (∀ i, c.maybeMoveWide v = some i →
      lower_constant c rd v = c.emit (.MovZ rd i)) ∧
    (c.maybeMoveWide v = none → ∀ i, c.maybeMoveWide (not64 v) = some i →
      lower_constant c rd v = c.emit (.MovN rd i)) ∧
    (c.maybeMoveWide v = none → c.maybeMoveWide (not64 v) = none →
      ∀ i, c.maybeImmLogic v = some i →
      lower_constant c rd v = c.emit (.AluRRImmLogic .Orr64 rd zero_reg i)) ∧
    (c.maybeMoveWide v = none → c.maybeMoveWide (not64 v) = none →
      c.maybeImmLogic v = none →
      lower_constant c rd v = c.emit (.ULoad64 rd (.label v))) := by
  refine ⟨?_, ?_, ?_, ?_⟩ <;> intros <;> unfold lower_constant <;> simp_all

/-- Witness for C4: each of the four materialization forms is chosen at a
concrete value under concrete oracles. -/
theorem lower_constant_choice_witness :
    lower_constant ctxMovz 0 5 = ctxMovz.emit (.MovZ 0 5) ∧
    lower_constant ctxMovz 0 (not64 7) = ctxMovz.emit (.MovN 0 7) ∧
    lower_constant ctxLogic 0 99 = ctxLogic.emit (.AluRRImmLogic .Orr64 0 zero_reg 99) ∧
    lower_constant defaultCtx 0 99 = defaultCtx.emit (.ULoad64 0 (.label 99)) :=
  ⟨(lower_constant_choice ctxMovz 0 5).1 5 (by decide),
   (lower_constant_choice ctxMovz 0 (not64 7)).2.1 (by decide) 7 (by decide),
   (lower_constant_choice ctxLogic 0 99).2.2.1 rfl rfl 99 rfl,
   (lower_constant_choice defaultCtx 0 99).2.2.2 rfl rfl rfl⟩

/-- C3 (amended): when an input fetch specifies the zero- or sign-extend
narrow mode, every value narrower than 32 bits is extended by an explicit
`Extend` instruction into a 32-bit register before use; a value of 32 bits
or more is returned unmodified with no extend emitted, and narrow mode
`none` never extends. -/
theorem input_to_reg_extension (c : Ctx) (inp : InsnInput) :
    (ty_bits (c.inputTyF inp.insn inp.input) < 32 →
      input_to_reg c inp .zeroExtend =
        (c.inputRegF inp.insn inp.input,
         c.emit (.Extend (c.inputRegF inp.insn inp.input) (c.inputRegF inp.insn inp.input)
           false (ty_bits (c.inputTyF inp.insn inp.input)) 32)) ∧
      input_to_reg c inp .signExtend =
        (c.inputRegF inp.insn inp.input,
         c.emit (.Extend (c.inputRegF inp.insn inp.input) (c.inputRegF inp.insn inp.input)
           true (ty_bits (c.inputTyF inp.insn inp.input)) 32))) ∧
    (32 ≤ ty_bits (c.inputTyF inp.insn inp.input) →
      ∀ mode, input_to_reg c inp mode = (c.inputRegF inp.insn inp.input, c)) ∧
    (input_to_reg c inp .none = (c.inputRegF inp.insn inp.input, c)) := by
  refine ⟨fun h => ⟨?_, ?_⟩, fun h mode => ?_, ?_⟩
  · unfold input_to_reg
    simp [h]
  · unfold input_to_reg
    simp [h]
  · unfold input_to_reg
    cases mode <;> simp [Nat.not_lt.mpr h]
  · unfold input_to_reg
    simp

/-- Witness for C3 (amended) at an 8-bit input. -/
theorem input_to_reg_extension_witness :
    input_to_reg { defaultCtx with inputTyF := fun _ _ => .I8 } ⟨0, 0⟩ .zeroExtend =
      (1, Ctx.emit { defaultCtx with inputTyF := fun _ _ => .I8 } (.Extend 1 1 false 8 32)) :=
  ((input_to_reg_extension { defaultCtx with inputTyF := fun _ _ => .I8 } ⟨0, 0⟩).1
    (by decide)).1

/-- C3 counterexample: a 32-bit value — narrower than the 64-bit machine
word of this 64-bit target — fetched with the zero-extend narrow mode is
*not* extended: no instruction at all is emitted (the context is returned
untouched, with its empty instruction buffer), contradicting the claim that
every value narrower than the machine word is extended into the high bits
before use. -/
theorem no_extend_for_32bit_value :
    input_to_reg ctx32 ⟨0, 0⟩ .zeroExtend = (1, ctx32) ∧ ctx32.emitted = [] :=
  ⟨rfl, rfl⟩

/-- `input_to_reg` never emits an add instruction. -/
theorem input_to_reg_no_adds (c : Ctx) (inp : InsnInput) (mode : NarrowValueMode) :
    ((input_to_reg c inp mode).2.emitted.filter Inst.isAdd)
      = c.emitted.filter Inst.isAdd := by
  cases mode
  · simp [input_to_reg]
  · simp only [input_to_reg]
    split <;> simp [Ctx.emit, List.filter_append, Inst.isAdd]
  · simp only [input_to_reg]
    split <;> simp [Ctx.emit, List.filter_append, Inst.isAdd]

/-- `lower_constant` never emits an add instruction. -/
theorem lower_constant_no_adds (c : Ctx) (rd : Reg) (v : Nat) :
    ((lower_constant c rd v).emitted.filter Inst.isAdd)
      = c.emitted.filter Inst.isAdd := by
  unfold lower_constant
  cases c.maybeMoveWide v with
  | some i => simp [Ctx.emit, List.filter_append, Inst.isAdd]
  | none =>
    cases c.maybeMoveWide (not64 v) with
    | some i => simp [Ctx.emit, List.filter_append, Inst.isAdd]
    | none =>
      cases c.maybeImmLogic v with
      | some i => simp [Ctx.emit, List.filter_append, Inst.isAdd]
      | none => simp [Ctx.emit, List.filter_append, Inst.isAdd]

/-- Each iteration of the addend-accumulation fold of `lower_address_general`
adds exactly one add instruction. -/
theorem lower_address_fold_adds (addr : Reg) (addends : List InsnInput) :
    ∀ cc : Ctx,
      (((addends.foldl
          (fun cc addend =>
            (input_to_reg cc addend .zeroExtend).2.emit
              (.AluRRR .Add64 addr addr (input_to_reg cc addend .zeroExtend).1)) cc)
        |>.emitted.filter Inst.isAdd).length)
        = (cc.emitted.filter Inst.isAdd).length + addends.length := by
  induction addends with
  | nil => intro cc; simp
  | cons a rest ih =>
    intro cc
    simp only [List.foldl_cons, List.length_cons]
    rw [ih]
    have h1 : (((input_to_reg cc a .zeroExtend).2.emit
        (.AluRRR .Add64 addr addr (input_to_reg cc a .zeroExtend).1))
          |>.emitted.filter Inst.isAdd).length
        = (cc.emitted.filter Inst.isAdd).length + 1 := by
      simp [Ctx.emit, List.filter_append, Inst.isAdd, input_to_reg_no_adds]
    rw [h1]
    omega

/-- C5: address lowering is deterministic over the shape of its input.  One
addend with an offset accepted by the addressing-immediate oracle returns
the oracle's base-plus-immediate form and emits no add; exactly two addends
with zero offset return the base-plus-index-register form; any other
combination (no addend, three or more addends, two addends with nonzero
offset, or one addend whose offset the oracle rejects) goes through
`lower_address_general`, which materializes the offset into the fresh
temporary `c.nextTmp` and emits exactly one add per addend, returning the
base-register-only form. -/
theorem lower_address_shape (c : Ctx) (ety : Ty) (off : Int) :
    (∀ a0 m,
      (input_to_reg c a0 .zeroExtend).2.regMaybeOffset
          (input_to_reg c a0 .zeroExtend).1 off ety = some m →
      lower_address c ety [a0] off = (m, (input_to_reg c a0 .zeroExtend).2) ∧
      ((input_to_reg c a0 .zeroExtend).2.emitted.filter Inst.isAdd
        = c.emitted.filter Inst.isAdd)) ∧
    (∀ a0 a1,
      lower_address c ety [a0, a1] 0 =
        (.BasePlusReg (input_to_reg c a0 .zeroExtend).1
          (input_to_reg (input_to_reg c a0 .zeroExtend).2 a1 .zeroExtend).1,
         (input_to_reg (input_to_reg c a0 .zeroExtend).2 a1 .zeroExtend).2)) ∧
    (∀ addends,
      (lower_address_general c addends off).1 = .Base c.nextTmp ∧
      ((lower_address_general c addends off).2.emitted.filter Inst.isAdd).length
        = (c.emitted.filter Inst.isAdd).length + addends.length) ∧
    (∀ a0 a1 a2 rest,
      lower_address c ety (a0 :: a1 :: a2 :: rest) off
        = lower_address_general c (a0 :: a1 :: a2 :: rest) off) ∧
    (∀ a0 a1, off ≠ 0 →
      lower_address c ety [a0, a1] off = lower_address_general c [a0, a1] off) ∧
    (∀ a0,
      (input_to_reg c a0 .zeroExtend).2.regMaybeOffset
          (input_to_reg c a0 .zeroExtend).1 off ety = none →
      lower_address c ety [a0] off
        = lower_address_general (input_to_reg c a0 .zeroExtend).2 [a0] off) := by
  refine ⟨?_, ?_, ?_, ?_, ?_, ?_⟩
  · intro a0 m h
    constructor
    · unfold lower_address
      simp only [h]
    · exact input_to_reg_no_adds c a0 .zeroExtend
  · intro a0 a1
    unfold lower_address
    simp
  · intro addends
    constructor
    · rfl
    · show (((addends.foldl _ (lower_constant c.tmp.2 c.tmp.1 (toU64 off)))
        |>.emitted.filter Inst.isAdd).length) = _
      rw [lower_address_fold_adds]
      rw [lower_constant_no_adds]
      rfl
  · intro a0 a1 a2 rest
    rfl
  · intro a0 a1 h
    unfold lower_address
    simp [h]
  · intro a0 h
    unfold lower_address
    simp only [h]

/-- Witness for C5: at a concrete context whose offset oracle accepts, one
addend and offset `4` return the oracle's base-plus-immediate form; the
three-addend fallback emits three adds from the fresh temporary. -/
theorem lower_address_shape_witness :
    lower_address ctxMem .I64 [⟨7, 0⟩] 4 = (.BaseSImm9 1 4, ctxMem) ∧
    (lower_address_general defaultCtx [⟨7, 0⟩, ⟨8, 0⟩, ⟨9, 0⟩] 4).1 = .Base 100 ∧
    ((lower_address_general defaultCtx [⟨7, 0⟩, ⟨8, 0⟩, ⟨9, 0⟩] 4).2.emitted.filter
      Inst.isAdd).length = 3 :=
  ⟨((lower_address_shape ctxMem .I64 4).1 ⟨7, 0⟩ (.BaseSImm9 1 4) rfl).1,
   ((lower_address_shape defaultCtx .I64 4).2.2.1 [⟨7, 0⟩, ⟨8, 0⟩, ⟨9, 0⟩]).1,
   ((lower_address_shape defaultCtx .I64 4).2.2.1 [⟨7, 0⟩, ⟨8, 0⟩, ⟨9, 0⟩]).2⟩

/-- C1: during arm64 lowering, an input is treated as a foldable producer
output only when the producer is in the same basic block and its result has
exactly one use overall; when these conditions do not hold the plain-register
form is used, with no instruction emitted and no merge recorded.  Moreover
any non-plain-register (folded) operand produced by `input_to_rse_imm12`
implies the producer satisfied the same-block single-use conditions. -/
theorem fold_only_same_block_single_use (c : Ctx) (inp : InsnInput)
    (mode : NarrowValueMode) :
    ((∀ s, c.srcInfo inp.insn inp.input = some s → ¬ (s.sameBlock ∧ s.uses = 1)) →
      input_to_rse_imm12 c inp mode = .ok (.Reg (c.inputRegF inp.insn inp.input), c)) ∧
    (∀ r c', input_to_rse_imm12 c inp mode = .ok (r, c') →
      (∀ reg, r ≠ ResultRSEImm12.Reg reg) →
      ∃ s, c.srcInfo inp.insn inp.input = some s ∧ s.sameBlock ∧ s.uses = 1) := by
  constructor
  · intro hgate
    unfold input_to_rse_imm12 input_source Ctx.input_inst
    cases hsrc : c.srcInfo inp.insn inp.input with
    | none => simp
    | some s =>
      have := hgate s hsrc
      simp [this]
  · intro r c' hres hreg
    unfold input_to_rse_imm12 input_source Ctx.input_inst at hres
    cases hsrc : c.srcInfo inp.insn inp.input with
    | none =>
      rw [hsrc] at hres
      simp at hres
      exact absurd hres.1.symm (hreg _)
    | some s =>
      rw [hsrc] at hres
      by_cases hc : s.sameBlock ∧ s.uses = 1
      · exact ⟨s, rfl, hc⟩
      · simp [hc] at hres
        exact absurd hres.1.symm (hreg _)

/-- Witness for C1: under a context whose producer query reports no producer,
the plain-register form is returned unchanged. -/
theorem fold_only_same_block_single_use_witness :
    input_to_rse_imm12 defaultCtx ⟨0, 0⟩ .none = .ok (.Reg 1, defaultCtx) :=
  (fold_only_same_block_single_use defaultCtx ⟨0, 0⟩ .none).1 (fun _ h => nomatch h)

/-- C9: feeding branch-group lowering a group of three or more branches, or a
two-instruction group whose second instruction is not an unconditional jump
or fallthrough, aborts with the fatal invariant-violation (assertion)
condition, lowering nothing. -/
theorem branch_group_shape_enforcement (c : Ctx) (targets : List Nat)
    (ft : Option Nat) :
    (∀ branches, 3 ≤ branches.length →
      lower_branch_group c branches targets ft = .error .assertFailed) ∧
    (∀ b0 b1, ¬ ((c.dataF b1).opcode = .Jump ∨ (c.dataF b1).opcode = .Fallthrough) →
      lower_branch_group c [b0, b1] targets ft = .error .assertFailed) := by
  constructor
  · intro branches h
    unfold lower_branch_group
    have : branches.length > 2 := by omega
    simp [this]
  · intro b0 b1 h
    unfold lower_branch_group
    simp [h]

/-- Witness for C9 at a three-branch group and at a two-branch group whose
second member is a conditional branch. -/
theorem branch_group_shape_enforcement_witness :
    lower_branch_group defaultCtx [0, 1, 2] [5, 6] none = .error .assertFailed ∧
    lower_branch_group ctxBrz [1, 0] [5, 6] none = .error .assertFailed :=
  ⟨(branch_group_shape_enforcement defaultCtx [5, 6] none).1 [0, 1, 2] (by decide),
   (branch_group_shape_enforcement ctxBrz [5, 6] none).2 1 0 (by decide)⟩

/-- C8 counterexample: the group `[brif, jump]` is exactly one conditional
branch followed by an unconditional branch, yet branch-group lowering does
not emit a fused conditional-branch instruction — it aborts with the
not-implemented signal and lowers nothing. -/
theorem brif_group_not_fused :
    lower_branch_group ctxBrif [0, 1] [5, 6] none = .error .unimplemented := rfl

/-- C8 (amended): when a branch group is exactly one conditional branch of an
implemented kind (`brz`, `brnz`, `br_icmp`) followed by an unconditional
jump or fallthrough, lowering emits a single fused conditional-branch
machine instruction carrying both targets (preceded, for `br_icmp`, by the
flag-setting compare, 32-bit or 64-bit per the operand type); an
unimplemented conditional kind (`brif`, `brff`) aborts with the
not-implemented signal; a lone unconditional jump or fallthrough emits the
corresponding single jump terminator. -/
theorem branch_group_fused_shapes (c : Ctx) (b0 b1 t0 t1 : Nat) (rest : List Nat)
    (ft : Option Nat) :
    ((c.dataF b0).opcode = .Brz → (c.dataF b1).opcode = .Jump →
      lower_branch_group c [b0, b1] (t0 :: t1 :: rest) ft =
        .ok ((input_to_reg c ⟨b0, 0⟩ .zeroExtend).2.emit
          (.CondBr (.Block t0) (.Block t1)
            (.Zero (input_to_reg c ⟨b0, 0⟩ .zeroExtend).1)))) ∧
    ((c.dataF b0).opcode = .Brnz → (c.dataF b1).opcode = .Jump →
      lower_branch_group c [b0, b1] (t0 :: t1 :: rest) ft =
        .ok ((input_to_reg c ⟨b0, 0⟩ .zeroExtend).2.emit
          (.CondBr (.Block t0) (.Block t1)
            (.NotZero (input_to_reg c ⟨b0, 0⟩ .zeroExtend).1)))) ∧
    (∀ f, (c.dataF b0).opcode = .Brz → (c.dataF b1).opcode = .Fallthrough →
      ft = some f →
      lower_branch_group c [b0, b1] (t0 :: t1 :: rest) ft =
        .ok ((input_to_reg c ⟨b0, 0⟩ .zeroExtend).2.emit
          (.CondBr (.Block t0) (.Block f)
            (.Zero (input_to_reg c ⟨b0, 0⟩ .zeroExtend).1)))) ∧
    (∀ f, (c.dataF b0).opcode = .Brnz → (c.dataF b1).opcode = .Fallthrough →
      ft = some f →
      lower_branch_group c [b0, b1] (t0 :: t1 :: rest) ft =
        .ok ((input_to_reg c ⟨b0, 0⟩ .zeroExtend).2.emit
          (.CondBr (.Block t0) (.Block f)
            (.NotZero (input_to_reg c ⟨b0, 0⟩ .zeroExtend).1)))) ∧
    (∀ cc, (c.dataF b0).opcode = .BrIcmp → (c.dataF b1).opcode = .Jump →
      c.condcodeF b0 = some cc →
      ty_bits ((input_to_reg (input_to_reg c ⟨b0, 0⟩ .signExtend).2
        ⟨b0, 1⟩ .signExtend).2.inputTyF b0 0) ≤ 32 →
      lower_branch_group c [b0, b1] (t0 :: t1 :: rest) ft =
        .ok ((((input_to_reg (input_to_reg c ⟨b0, 0⟩ .signExtend).2
            ⟨b0, 1⟩ .signExtend).2.emit
          (.AluRRR .SubS32 writable_zero_reg
            (input_to_reg c ⟨b0, 0⟩ .signExtend).1
            (input_to_reg (input_to_reg c ⟨b0, 0⟩ .signExtend).2 ⟨b0, 1⟩ .signExtend).1)).emit
          (.CondBr (.Block t0) (.Block t1) (.Cond (lower_condcode cc)))))) ∧
    (∀ cc, (c.dataF b0).opcode = .BrIcmp → (c.dataF b1).opcode = .Jump →
      c.condcodeF b0 = some cc →
      ty_bits ((input_to_reg (input_to_reg c ⟨b0, 0⟩ .signExtend).2
        ⟨b0, 1⟩ .signExtend).2.inputTyF b0 0) = 64 →
      lower_branch_group c [b0, b1] (t0 :: t1 :: rest) ft =
        .ok ((((input_to_reg (input_to_reg c ⟨b0, 0⟩ .signExtend).2
            ⟨b0, 1⟩ .signExtend).2.emit
          (.AluRRR .SubS64 writable_zero_reg
            (input_to_reg c ⟨b0, 0⟩ .signExtend).1
            (input_to_reg (input_to_reg c ⟨b0, 0⟩ .signExtend).2 ⟨b0, 1⟩ .signExtend).1)).emit
          (.CondBr (.Block t0) (.Block t1) (.Cond (lower_condcode cc)))))) ∧
    (∀ cc f, (c.dataF b0).opcode = .BrIcmp → (c.dataF b1).opcode = .Fallthrough →
      ft = some f → c.condcodeF b0 = some cc →
      ty_bits ((input_to_reg (input_to_reg c ⟨b0, 0⟩ .signExtend).2
        ⟨b0, 1⟩ .signExtend).2.inputTyF b0 0) ≤ 32 →
      lower_branch_group c [b0, b1] (t0 :: t1 :: rest) ft =
        .ok ((((input_to_reg (input_to_reg c ⟨b0, 0⟩ .signExtend).2
            ⟨b0, 1⟩ .signExtend).2.emit
          (.AluRRR .SubS32 writable_zero_reg
            (input_to_reg c ⟨b0, 0⟩ .signExtend).1
            (input_to_reg (input_to_reg c ⟨b0, 0⟩ .signExtend).2 ⟨b0, 1⟩ .signExtend).1)).emit
          (.CondBr (.Block t0) (.Block f) (.Cond (lower_condcode cc)))))) ∧
    (∀ cc f, (c.dataF b0).opcode = .BrIcmp → (c.dataF b1).opcode = .Fallthrough →
      ft = some f → c.condcodeF b0 = some cc →
      ty_bits ((input_to_reg (input_to_reg c ⟨b0, 0⟩ .signExtend).2
        ⟨b0, 1⟩ .signExtend).2.inputTyF b0 0) = 64 →
      lower_branch_group c [b0, b1] (t0 :: t1 :: rest) ft =
        .ok ((((input_to_reg (input_to_reg c ⟨b0, 0⟩ .signExtend).2
            ⟨b0, 1⟩ .signExtend).2.emit
          (.AluRRR .SubS64 writable_zero_reg
            (input_to_reg c ⟨b0, 0⟩ .signExtend).1
            (input_to_reg (input_to_reg c ⟨b0, 0⟩ .signExtend).2 ⟨b0, 1⟩ .signExtend).1)).emit
          (.CondBr (.Block t0) (.Block f) (.Cond (lower_condcode cc)))))) ∧
    ((c.dataF b0).opcode = .Brif → (c.dataF b1).opcode = .Jump →
      lower_branch_group c [b0, b1] (t0 :: t1 :: rest) ft = .error .unimplemented) ∧
    ((c.dataF b0).opcode = .Brff → (c.dataF b1).opcode = .Jump →
      lower_branch_group c [b0, b1] (t0 :: t1 :: rest) ft = .error .unimplemented) ∧
    ((c.dataF b0).opcode = .Jump →
      lower_branch_group c [b0] (t0 :: t1 :: rest) ft =
        .ok (c.emit (.Jump (.Block t0)))) ∧
    ((c.dataF b0).opcode = .Fallthrough →
      lower_branch_group c [b0] (t0 :: t1 :: rest) ft =
        .ok (c.emit (.Jump (.Block t0)))) := by
  refine ⟨?_, ?_, ?_, ?_, ?_, ?_, ?_, ?_, ?_, ?_, ?_, ?_⟩
  · intro h0 h1
    unfold lower_branch_group branch_not_taken
    simp [h0, h1]
  · intro h0 h1
    unfold lower_branch_group branch_not_taken
    simp [h0, h1]
  · intro f h0 h1 hft
    unfold lower_branch_group branch_not_taken
    simp [h0, h1, hft]
  · intro f h0 h1 hft
    unfold lower_branch_group branch_not_taken
    simp [h0, h1, hft]
  · intro cc h0 h1 hcc hbits
    unfold lower_branch_group branch_not_taken choose_32_64
    simp [h0, h1, hcc, hbits]
  · intro cc h0 h1 hcc hbits
    unfold lower_branch_group branch_not_taken choose_32_64
    simp [h0, h1, hcc, hbits]
  · intro cc f h0 h1 hft hcc hbits
    unfold lower_branch_group branch_not_taken choose_32_64
    simp [h0, h1, hft, hcc, hbits]
  · intro cc f h0 h1 hft hcc hbits
    unfold lower_branch_group branch_not_taken choose_32_64
    simp [h0, h1, hft, hcc, hbits]
  · intro h0 h1
    unfold lower_branch_group branch_not_taken
    simp [h0, h1]
  · intro h0 h1
    unfold lower_branch_group branch_not_taken
    simp [h0, h1]
  · intro h0
    unfold lower_branch_group
    simp [h0]
  · intro h0
    unfold lower_branch_group
    simp [h0]

/-- Witness for C8 (amended): the `[brz, jump]` group at concrete blocks
lowers to a single fused conditional branch carrying both targets; the
`[br_icmp, jump]` group over 64-bit equality operands lowers to the 64-bit
flag-setting compare followed by the fused conditional branch; the
`[brff, jump]` group aborts with the not-implemented signal. -/
theorem branch_group_fused_shapes_witness :
    (lower_branch_group ctxBrz [0, 1] [5, 6] none =
      .ok (ctxBrz.emit (.CondBr (.Block 5) (.Block 6) (.Zero 1)))) ∧
    (lower_branch_group ctxBrIcmp64 [0, 1] [5, 6] none =
      .ok ((ctxBrIcmp64.emit (.AluRRR .SubS64 writable_zero_reg 1 1)).emit
        (.CondBr (.Block 5) (.Block 6) (.Cond .Eq)))) ∧
    (lower_branch_group ctxBrff [0, 1] [5, 6] none = .error .unimplemented) :=
  ⟨(branch_group_fused_shapes ctxBrz 0 1 5 6 [] none).1 rfl rfl,
   (branch_group_fused_shapes ctxBrIcmp64 0 1 5 6 [] none).2.2.2.2.2.1
     .Equal rfl rfl rfl rfl,
   (branch_group_fused_shapes ctxBrff 0 1 5 6 [] none).2.2.2.2.2.2.2.2.2.1 rfl rfl⟩

end Arm64

namespace MachLower

/-- The step equation of `lowerInsts` on a nonempty instruction list. -/
theorem lowerInsts_cons (backend : LowSt → Nat → LowSt) (s : LowSt)
    (tr : List (Nat × Nat)) (i : Nat) (rest : List Nat) :
    lowerInsts backend (s, tr) (i :: rest) =
      if 0 < s.numUses i then
        lowerInsts backend (backend s i, tr ++ [(i, s.numUses i)]) rest
      else
        lowerInsts backend (s, tr) rest := rfl

/-- Every trace entry added by one block's instruction walk has a positive
visit-time use count, provided the incoming trace does. -/
theorem lowerInsts_trace_pos (backend : LowSt → Nat → LowSt) (insts : List Nat) :
    ∀ (s : LowSt) (tr : List (Nat × Nat)), (∀ p ∈ tr, 0 < p.2) →
      ∀ p ∈ (lowerInsts backend (s, tr) insts).2, 0 < p.2 := by
  induction insts with
  | nil =>
    intro s tr h p hp
    exact h p hp
  | cons i rest ih =>
    intro s tr h p hp
    rw [lowerInsts_cons] at hp
    by_cases hc : 0 < s.numUses i
    · rw [if_pos hc] at hp
      refine ih (backend s i) (tr ++ [(i, s.numUses i)]) ?_ p hp
      intro q hq
      rcases List.mem_append.mp hq with hq | hq
      · exact h q hq
      · simp at hq
        subst hq
        exact hc
    · rw [if_neg hc] at hp
      exact ih s tr h p hp

/-- The block fold of `Lower_lower` preserves positivity of the trace. -/
theorem lower_fold_trace_pos (backend : LowSt → Nat → LowSt) (ebbs : List (List Nat)) :
    ∀ acc : LowSt × List (Nat × Nat), (∀ p ∈ acc.2, 0 < p.2) →
      ∀ p ∈ (ebbs.foldl (fun st ebb => lowerInsts backend st ebb.reverse) acc).2,
        0 < p.2 := by
  induction ebbs with
  | nil =>
    intro acc h p hp
    exact h p hp
  | cons e rest ih =>
    intro acc h p hp
    simp only [List.foldl_cons] at hp
    exact ih (lowerInsts backend acc e.reverse)
      (lowerInsts_trace_pos backend e.reverse acc.1 acc.2 h) p hp

/-- C6: the use count maintained by the lowering driver never goes negative —
`dec_use` on a zero count is the unrecoverable assertion failure, and a
successful `dec_use` decrements exactly the requested counter — and the
traversal never hands an instruction whose use count is zero to the backend:
every instruction actually lowered had a positive use count at the moment it
was visited, for any backend behaviour. -/
theorem use_count_discipline :
    (∀ (s : LowSt) (i : Nat),
      (s.numUses i = 0 → dec_use s i = none) ∧
      (0 < s.numUses i → ∃ s', dec_use s i = some s' ∧
        s'.numUses i = s.numUses i - 1 ∧ ∀ j, j ≠ i → s'.numUses j = s.numUses j)) ∧
    (∀ backend ebbs (s0 : LowSt) p, p ∈ (Lower_lower backend ebbs s0).2 → 0 < p.2) := by
  constructor
  · intro s i
    constructor
    · intro h
      unfold dec_use
      simp [h]
    · intro h
      refine ⟨⟨fun j => if j = i then s.numUses i - 1 else s.numUses j⟩, ?_, ?_, ?_⟩
      · unfold dec_use
        simp [h]
      · simp
      · intro j hj
        simp [hj]
  · intro backend ebbs s0 p hp
    exact lower_fold_trace_pos backend ebbs.reverse (s0, []) (by simp) p hp

/-- Witness for C6: a concrete state with two uses of instruction 0; a
decrement succeeds and leaves one use, and lowering one block of one
instruction under a no-op backend records a positive visit count. -/
theorem use_count_discipline_witness :
    (dec_use ⟨fun i => if i = 0 then 2 else 0⟩ 0 = none → False) ∧
    ((0, 2) ∈ (Lower_lower (fun s _ => s) [[0]] ⟨fun i => if i = 0 then 2 else 0⟩).2 →
      0 < (2 : Nat)) :=
  ⟨fun h => by
      rcases (use_count_discipline.1 ⟨fun i => if i = 0 then 2 else 0⟩ 0).2 (by simp) with
        ⟨s', hs', _⟩
      rw [h] at hs'
      exact Option.noConfusion hs',
   fun h => use_count_discipline.2 (fun s _ => s) [[0]]
      ⟨fun i => if i = 0 then 2 else 0⟩ (0, 2) h⟩

/-- Appending on the right does not change the index of a present element. -/
theorem idxOf_append_mem (v : Nat) (l2 : List Nat) :
    ∀ l : List Nat, v ∈ l → idxOf v (l ++ l2) = idxOf v l := by
  intro l
  induction l with
  | nil => intro h; cases h
  | cons x xs ih =>
    intro h
    by_cases hx : x = v
    · simp [idxOf, hx]
    · have hm : v ∈ xs := by
        rcases List.mem_cons.mp h with h' | h'
        · exact absurd h'.symm hx
        · exact h'
      simp [idxOf, hx, ih hm]

/-- The index of a freshly appended element is the old length. -/
theorem idxOf_append_self (v : Nat) :
    ∀ l : List Nat, v ∉ l → idxOf v (l ++ [v]) = l.length := by
  intro l
  induction l with
  | nil => intro h; simp [idxOf]
  | cons x xs ih =>
    intro h
    simp only [List.mem_cons] at h
    push_neg at h
    have hx : ¬ x = v := fun he => h.1 he.symm
    simp only [List.cons_append, idxOf, if_neg hx, List.append_eq]
    rw [ih h.2]
    simp

/-- On a duplicate-free list, equal indices of members force equal values. -/
theorem idxOf_inj (v w : Nat) :
    ∀ l : List Nat, l.Nodup → v ∈ l → w ∈ l → idxOf v l = idxOf w l → v = w := by
  intro l
  induction l with
  | nil => intro _ hv; cases hv
  | cons x xs ih =>
    intro hnd hv hw heq
    rcases List.nodup_cons.mp hnd with ⟨hx, hnd'⟩
    by_cases hxv : x = v <;> by_cases hxw : x = w
    · rw [← hxv, ← hxw]
    · rw [show idxOf v (x :: xs) = 0 by simp [idxOf, hxv]] at heq
      rw [show idxOf w (x :: xs) = idxOf w xs + 1 by simp [idxOf, hxw]] at heq
      cases heq
    · rw [show idxOf v (x :: xs) = idxOf v xs + 1 by simp [idxOf, hxv]] at heq
      rw [show idxOf w (x :: xs) = 0 by simp [idxOf, hxw]] at heq
      cases heq
    · have hv' : v ∈ xs := by
        rcases List.mem_cons.mp hv with h' | h'
        · exact absurd h'.symm hxv
        · exact h'
      have hw' : w ∈ xs := by
        rcases List.mem_cons.mp hw with h' | h'
        · exact absurd h'.symm hxw
        · exact h'
      simp only [idxOf, if_neg hxv, if_neg hxw, Nat.add_right_cancel_iff] at heq
      exact ih hnd' hv' hw' heq

/-- Membership through one first-occurrence step. -/
theorem occStep_mem (acc : List Nat) (v w : Nat) :
    w ∈ occStep acc v ↔ w ∈ acc ∨ w = v := by
  unfold occStep
  by_cases h : v ∈ acc
  · rw [if_pos h]
    constructor
    · exact Or.inl
    · rintro (hw | rfl)
      · exact hw
      · exact h
  · rw [if_neg h]
    simp [List.mem_append]

/-- Membership in a first-occurrence fold. -/
theorem foldl_occStep_mem (l : List Nat) :
    ∀ acc w, w ∈ l.foldl occStep acc ↔ w ∈ acc ∨ w ∈ l := by
  induction l with
  | nil => intro acc w; simp
  | cons x xs ih =>
    intro acc w
    simp only [List.foldl_cons]
    rw [ih, occStep_mem]
    simp [or_assoc]

/-- A first-occurrence step preserves freedom from duplicates. -/
theorem occStep_nodup (acc : List Nat) (v : Nat) (h : acc.Nodup) :
    (occStep acc v).Nodup := by
  unfold occStep
  by_cases hv : v ∈ acc
  · rw [if_pos hv]
    exact h
  · rw [if_neg hv]
    refine List.Nodup.append h (List.nodup_singleton v) ?_
    intro a ha hav
    rw [List.mem_singleton] at hav
    exact hv (hav ▸ ha)

/-- A first-occurrence fold of a duplicate-free accumulator stays
duplicate-free. -/
theorem foldl_occStep_nodup (l : List Nat) :
    ∀ acc : List Nat, acc.Nodup → (l.foldl occStep acc).Nodup := by
  induction l with
  | nil => intro acc h; exact h
  | cons x xs ih =>
    intro acc h
    exact ih (occStep acc x) (occStep_nodup acc x h)

/-- One `alloc_vreg` step acts on a first-occurrence table exactly like one
first-occurrence step. -/
theorem alloc_vreg_mapOf (acc : List Nat) (v : Nat) :
    alloc_vreg (mapOf acc, acc.length) v = (mapOf (occStep acc v), (occStep acc v).length) := by
  by_cases h : v ∈ acc
  · unfold alloc_vreg mapOf occStep
    simp [h]
  · unfold alloc_vreg mapOf occStep
    simp only [h, if_false, if_neg h]
    rw [Prod.mk.injEq]
    constructor
    · funext x
      by_cases hx : x = v
      · subst hx
        have hmem : x ∈ acc ++ [x] := by simp
        rw [if_pos rfl, if_pos hmem, idxOf_append_self x acc h]
      · rw [if_neg hx]
        by_cases hxa : x ∈ acc
        · have hmem : x ∈ acc ++ [v] := List.mem_append_left _ hxa
          rw [if_pos hxa, if_pos hmem, idxOf_append_mem x [v] acc hxa]
        · have hmem : ¬ x ∈ acc ++ [v] := by simp [hxa, hx]
          rw [if_neg hxa, if_neg hmem]
    · simp

/-- Folding `alloc_vreg` over a scan list builds the first-occurrence
table. -/
theorem foldl_alloc_mapOf (l : List Nat) :
    ∀ acc : List Nat,
      l.foldl alloc_vreg (mapOf acc, acc.length)
        = (mapOf (l.foldl occStep acc), (l.foldl occStep acc).length) := by
  induction l with
  | nil => intro acc; rfl
  | cons x xs ih =>
    intro acc
    simp only [List.foldl_cons]
    rw [alloc_vreg_mapOf, ih (occStep acc x)]

/-- `Lower_new` computes the first-occurrence virtual-register table of the
scan order. -/
theorem Lower_new_eq (f : FuncL) :
    Lower_new f = (mapOf (firstOccs (scanValues f)), (firstOccs (scanValues f)).length) := by
  unfold Lower_new firstOccs
  have h0 : (fun _ : Nat => MachReg.undefined) = mapOf [] := by
    funext v
    simp [mapOf]
  calc (scanValues f).foldl alloc_vreg (fun _ => .undefined, 0)
      = (scanValues f).foldl alloc_vreg (mapOf [], ([] : List Nat).length) := by rw [← h0]; rfl
    _ = _ := foldl_alloc_mapOf (scanValues f) []

/-- C7: after construction of the lowering context, every SSA value occurring
in the function (block parameter, instruction argument or result) is mapped
to the virtual register numbered by its first-use position in program order;
values not occurring stay unassigned; `next_vreg` equals the number of
distinct values; distinct occurring values get distinct virtual registers;
and a query for a value is a pure read of the finished table, so every
subsequent query returns that same virtual register. -/
theorem vreg_totality (f : FuncL) :
    (∀ v, v ∈ scanValues f →
      (Lower_new f).1 v = .virt (idxOf v (firstOccs (scanValues f)))) ∧
    (∀ v, v ∉ scanValues f → (Lower_new f).1 v = .undefined) ∧
    ((Lower_new f).2 = (firstOccs (scanValues f)).length) ∧
    (∀ v w, v ∈ scanValues f → w ∈ scanValues f →
      (Lower_new f).1 v = (Lower_new f).1 w → v = w) ∧
    (∀ v, value_reg (Lower_new f) v = (Lower_new f).1 v) := by
  have hmem : ∀ v, v ∈ firstOccs (scanValues f) ↔ v ∈ scanValues f := by
    intro v
    unfold firstOccs
    rw [foldl_occStep_mem]
    simp
  have hnodup : (firstOccs (scanValues f)).Nodup :=
    foldl_occStep_nodup (scanValues f) [] List.nodup_nil
  refine ⟨?_, ?_, ?_, ?_, ?_⟩
  · intro v hv
    rw [Lower_new_eq]
    simp [mapOf, (hmem v).mpr hv]
  · intro v hv
    rw [Lower_new_eq]
    have : v ∉ firstOccs (scanValues f) := fun hc => hv ((hmem v).mp hc)
    simp [mapOf, this]
  · rw [Lower_new_eq]
  · intro v w hv hw heq
    rw [Lower_new_eq] at heq
    simp only [mapOf, if_pos ((hmem v).mpr hv), if_pos ((hmem w).mpr hw),
      MachReg.virt.injEq] at heq
    exact idxOf_inj v w _ hnodup ((hmem v).mpr hv) ((hmem w).mpr hw) heq
  · intro v
    rfl

/-- Witness for C7 on a concrete two-value function: the parameter gets
virtual register 0, the result virtual register 1, and the counter is 2. -/
theorem vreg_totality_witness :
    (Lower_new funcEx).1 0 = .virt 0 ∧
    (Lower_new funcEx).1 1 = .virt 1 ∧
    (Lower_new funcEx).2 = 2 :=
  ⟨(vreg_totality funcEx).1 0 (by decide),
   (vreg_totality funcEx).1 1 (by decide),
   (vreg_totality funcEx).2.2.1⟩

end MachLower

namespace MinAlloc

/-- Unfolding one copy. -/
theorem applyCopies_cons (c : Slot × Slot) (rest : List (Slot × Slot)) (m : Slot → Nat) :
    applyCopies (c :: rest) m
      = applyCopies rest (fun x => if x = c.2 then m c.1 else m x) := rfl

/-- Copies compose by concatenation. -/
theorem applyCopies_append (cs ds : List (Slot × Slot)) (m : Slot → Nat) :
    applyCopies (cs ++ ds) m = applyCopies ds (applyCopies cs m) := by
  unfold applyCopies
  rw [List.foldl_append]

/-- A slot written by no copy keeps its contents. -/
theorem applyCopies_not_target (x : Slot) :
    ∀ (cs : List (Slot × Slot)) (m : Slot → Nat),
      (∀ c ∈ cs, c.2 ≠ x) → applyCopies cs m x = m x := by
  intro cs
  induction cs with
  | nil => intro m _; rfl
  | cons c rest ih =>
    intro m h
    rw [applyCopies_cons]
    rw [ih _ (fun q hq => h q (List.mem_cons_of_mem c hq))]
    exact if_neg (fun he => h c (List.mem_cons_self c rest) he.symm)

/-- A copy list whose targets are distinct and never read as sources moves
every source value to its target. -/
theorem applyCopies_moves :
    ∀ (cs : List (Slot × Slot)) (m : Slot → Nat),
      ((cs.map Prod.snd).Nodup) →
      (∀ p ∈ cs, p.1 ∉ cs.map Prod.snd) →
      ∀ p ∈ cs, applyCopies cs m p.2 = m p.1 := by
  intro cs
  induction cs with
  | nil => intro m _ _ p hp; cases hp
  | cons c rest ih =>
    intro m hnd hsrc p hp
    have hcnotin : c.2 ∉ rest.map Prod.snd := by
      rw [List.map_cons] at hnd
      exact (List.nodup_cons.mp hnd).1
    rw [applyCopies_cons]
    rcases List.mem_cons.mp hp with rfl | hp'
    · have ht : ∀ q ∈ rest, q.2 ≠ p.2 := by
        intro q hq he
        exact hcnotin (he ▸ List.mem_map_of_mem Prod.snd hq)
      rw [applyCopies_not_target p.2 rest _ ht]
      simp
    · have h1 := ih (fun x => if x = c.2 then m c.1 else m x)
        (by rw [List.map_cons] at hnd; exact (List.nodup_cons.mp hnd).2)
        (by
          intro q hq hmem
          exact hsrc q (List.mem_cons_of_mem c hq)
            (by rw [List.map_cons]; exact List.mem_cons_of_mem c.2 hmem))
        p hp'
      rw [h1]
      have hne : p.1 ≠ c.2 := by
        intro he
        exact hsrc p (List.mem_cons_of_mem c hp')
          (by rw [List.map_cons, he]; exact List.mem_cons_self c.2 (rest.map Prod.snd))
      simp [hne]

/-- Step equation of `phase1Spec`: equal slots are skipped. -/
theorem phase1Spec_skip (tgt : List Slot) (fresh : Nat) (s t : Slot)
    (rest : List (Slot × Slot)) (h : s = t) :
    phase1Spec tgt fresh ((s, t) :: rest) = phase1Spec tgt fresh rest := by
  simp [phase1Spec, h]

/-- Step equation of `phase1Spec`: a conflicting source is routed through a
fresh slot. -/
theorem phase1Spec_conflict (tgt : List Slot) (fresh : Nat) (s t : Slot)
    (rest : List (Slot × Slot)) (h : ¬ s = t) (h2 : s ∈ tgt) :
    phase1Spec tgt fresh ((s, t) :: rest)
      = ((s, fresh) :: (phase1Spec tgt (fresh + 1) rest).1,
         (fresh, t) :: (phase1Spec tgt (fresh + 1) rest).2) := by
  simp [phase1Spec, h, h2]

/-- Step equation of `phase1Spec`: a non-conflicting source is copied
directly. -/
theorem phase1Spec_plain (tgt : List Slot) (fresh : Nat) (s t : Slot)
    (rest : List (Slot × Slot)) (h : ¬ s = t) (h2 : s ∉ tgt) :
    phase1Spec tgt fresh ((s, t) :: rest)
      = ((phase1Spec tgt fresh rest).1,
         (s, t) :: (phase1Spec tgt fresh rest).2) := by
  simp [phase1Spec, h, h2]

/-- Every routing copy of `phase1Spec` targets a slot at or above the fresh
counter. -/
theorem phase1Spec_cs_fresh (tgt : List Slot) :
    ∀ (pairs : List (Slot × Slot)) (fresh : Nat) (p : Slot × Slot),
      p ∈ (phase1Spec tgt fresh pairs).1 → fresh ≤ p.2 := by
  intro pairs
  induction pairs with
  | nil => intro fresh p hp; cases hp
  | cons a rest ih =>
    intro fresh p hp
    obtain ⟨s, t⟩ := a
    by_cases hst : s = t
    · rw [phase1Spec_skip tgt fresh s t rest hst] at hp
      exact ih fresh p hp
    · by_cases hmem : s ∈ tgt
      · rw [phase1Spec_conflict tgt fresh s t rest hst hmem] at hp
        rcases List.mem_cons.mp hp with rfl | hp'
        · exact Nat.le_refl fresh
        · exact Nat.le_of_succ_le (ih (fresh + 1) p hp')
      · rw [phase1Spec_plain tgt fresh s t rest hst hmem] at hp
        exact ih fresh p hp

/-- The routing copies of `phase1Spec` have pairwise-distinct targets. -/
theorem phase1Spec_cs_nodup (tgt : List Slot) :
    ∀ (pairs : List (Slot × Slot)) (fresh : Nat),
      ((phase1Spec tgt fresh pairs).1.map Prod.snd).Nodup := by
  intro pairs
  induction pairs with
  | nil => intro fresh; exact List.nodup_nil
  | cons a rest ih =>
    intro fresh
    obtain ⟨s, t⟩ := a
    by_cases hst : s = t
    · rw [phase1Spec_skip tgt fresh s t rest hst]
      exact ih fresh
    · by_cases hmem : s ∈ tgt
      · rw [phase1Spec_conflict tgt fresh s t rest hst hmem]
        rw [List.map_cons]
        refine List.nodup_cons.mpr ⟨?_, ih (fresh + 1)⟩
        intro hin
        rcases List.mem_map.mp hin with ⟨q, hq, hq2⟩
        have := phase1Spec_cs_fresh tgt rest (fresh + 1) q hq
        rw [hq2] at this
        omega
      · rw [phase1Spec_plain tgt fresh s t rest hst hmem]
        exact ih fresh

/-- Every routing copy's source slot stems from a conflicting input pair. -/
theorem phase1Spec_cs_src (tgt : List Slot) :
    ∀ (pairs : List (Slot × Slot)) (fresh : Nat) (p : Slot × Slot),
      p ∈ (phase1Spec tgt fresh pairs).1 → ∃ q ∈ pairs, p.1 = q.1 := by
  intro pairs
  induction pairs with
  | nil => intro fresh p hp; cases hp
  | cons a rest ih =>
    intro fresh p hp
    obtain ⟨s, t⟩ := a
    by_cases hst : s = t
    · rw [phase1Spec_skip tgt fresh s t rest hst] at hp
      rcases ih fresh p hp with ⟨q, hq, he⟩
      exact ⟨q, List.mem_cons_of_mem _ hq, he⟩
    · by_cases hmem : s ∈ tgt
      · rw [phase1Spec_conflict tgt fresh s t rest hst hmem] at hp
        rcases List.mem_cons.mp hp with rfl | hp'
        · exact ⟨(s, t), List.mem_cons_self _ _, rfl⟩
        · rcases ih (fresh + 1) p hp' with ⟨q, hq, he⟩
          exact ⟨q, List.mem_cons_of_mem _ hq, he⟩
      · rw [phase1Spec_plain tgt fresh s t rest hst hmem] at hp
        rcases ih fresh p hp with ⟨q, hq, he⟩
        exact ⟨q, List.mem_cons_of_mem _ hq, he⟩

/-- Every second-loop copy's target slot is one of the input target slots. -/
theorem phase1Spec_ups_tgt (tgt : List Slot) :
    ∀ (pairs : List (Slot × Slot)) (fresh : Nat) (p : Slot × Slot),
      p ∈ (phase1Spec tgt fresh pairs).2 → p.2 ∈ pairs.map Prod.snd := by
  intro pairs
  induction pairs with
  | nil => intro fresh p hp; cases hp
  | cons a rest ih =>
    intro fresh p hp
    obtain ⟨s, t⟩ := a
    by_cases hst : s = t
    · rw [phase1Spec_skip tgt fresh s t rest hst] at hp
      exact List.mem_cons_of_mem _ (ih fresh p hp)
    · by_cases hmem : s ∈ tgt
      · rw [phase1Spec_conflict tgt fresh s t rest hst hmem] at hp
        rcases List.mem_cons.mp hp with rfl | hp'
        · exact List.mem_cons_self _ _
        · exact List.mem_cons_of_mem _ (ih (fresh + 1) p hp')
      · rw [phase1Spec_plain tgt fresh s t rest hst hmem] at hp
        rcases List.mem_cons.mp hp with rfl | hp'
        · exact List.mem_cons_self _ _
        · exact List.mem_cons_of_mem _ (ih fresh p hp')

/-- The second-loop copy targets form a sublist of the input targets. -/
theorem phase1Spec_ups_tgt_sublist (tgt : List Slot) :
    ∀ (pairs : List (Slot × Slot)) (fresh : Nat),
      ((phase1Spec tgt fresh pairs).2.map Prod.snd).Sublist (pairs.map Prod.snd) := by
  intro pairs
  induction pairs with
  | nil => intro fresh; simp [phase1Spec]
  | cons a rest ih =>
    intro fresh
    obtain ⟨s, t⟩ := a
    by_cases hst : s = t
    · rw [phase1Spec_skip tgt fresh s t rest hst]
      exact List.Sublist.cons t (ih fresh)
    · by_cases hmem : s ∈ tgt
      · rw [phase1Spec_conflict tgt fresh s t rest hst hmem]
        rw [List.map_cons, List.map_cons]
        exact List.Sublist.cons₂ t (ih (fresh + 1))
      · rw [phase1Spec_plain tgt fresh s t rest hst hmem]
        rw [List.map_cons, List.map_cons]
        exact List.Sublist.cons₂ t (ih fresh)

/-- Every second-loop copy's source slot is either a fresh routing slot or a
non-conflicting original source slot. -/
theorem phase1Spec_ups_src (tgt : List Slot) :
    ∀ (pairs : List (Slot × Slot)) (fresh : Nat) (p : Slot × Slot),
      p ∈ (phase1Spec tgt fresh pairs).2 →
      fresh ≤ p.1 ∨ (p.1 ∉ tgt ∧ ∃ q ∈ pairs, p.1 = q.1) := by
  intro pairs
  induction pairs with
  | nil => intro fresh p hp; cases hp
  | cons a rest ih =>
    intro fresh p hp
    obtain ⟨s, t⟩ := a
    by_cases hst : s = t
    · rw [phase1Spec_skip tgt fresh s t rest hst] at hp
      rcases ih fresh p hp with h | ⟨h1, q, hq, he⟩
      · exact Or.inl h
      · exact Or.inr ⟨h1, q, List.mem_cons_of_mem _ hq, he⟩
    · by_cases hmem : s ∈ tgt
      · rw [phase1Spec_conflict tgt fresh s t rest hst hmem] at hp
        rcases List.mem_cons.mp hp with rfl | hp'
        · exact Or.inl (Nat.le_refl fresh)
        · rcases ih (fresh + 1) p hp' with h | ⟨h1, q, hq, he⟩
          · exact Or.inl (Nat.le_of_succ_le h)
          · exact Or.inr ⟨h1, q, List.mem_cons_of_mem _ hq, he⟩
      · rw [phase1Spec_plain tgt fresh s t rest hst hmem] at hp
        rcases List.mem_cons.mp hp with rfl | hp'
        · exact Or.inr ⟨hmem, (s, t), List.mem_cons_self _ _, rfl⟩
        · rcases ih fresh p hp' with h | ⟨h1, q, hq, he⟩
          · exact Or.inl h
          · exact Or.inr ⟨h1, q, List.mem_cons_of_mem _ hq, he⟩

/-- A slot strictly below a bound differs from every slot at or above it. -/
theorem slot_ne_of_lt_of_le (a b c : Nat) (h1 : a < b) (h2 : b ≤ c) : ¬ c = a :=
  fun he => absurd h1 (Nat.not_lt.mpr (he ▸ h2))

/-- The routing copies leave every slot below the fresh counter unchanged. -/
theorem phase1_mem_low (tgt : List Slot) (pairs : List (Slot × Slot)) (fresh : Nat)
    (m : Slot → Nat) (x : Slot) (hx : x < fresh) :
    applyCopies (phase1Spec tgt fresh pairs).1 m x = m x := by
  apply applyCopies_not_target
  intro c hc he
  have h2 := phase1Spec_cs_fresh tgt pairs fresh c hc
  exact slot_ne_of_lt_of_le x fresh c.2 hx h2 he

/-- After the routing copies, each fresh routing slot holds its source's
original value. -/
theorem phase1_mem_cs (tgt : List Slot) (pairs : List (Slot × Slot)) (fresh : Nat)
    (m : Slot → Nat) (hlt : ∀ q ∈ pairs, q.1 < fresh) :
    ∀ p ∈ (phase1Spec tgt fresh pairs).1,
      applyCopies (phase1Spec tgt fresh pairs).1 m p.2 = m p.1 := by
  apply applyCopies_moves
  · exact phase1Spec_cs_nodup tgt pairs fresh
  · intro p hp hmem
    rcases phase1Spec_cs_src tgt pairs fresh p hp with ⟨q, hq, he⟩
    rcases List.mem_map.mp hmem with ⟨c, hc, hc2⟩
    have h1 := phase1Spec_cs_fresh tgt pairs fresh c hc
    have h2 := hlt q hq
    rw [hc2] at h1
    rw [he] at h1
    exact absurd h1 (Nat.not_le.mpr h2)

/-- Memory correctness of the second-loop copies: on a memory where the
routing slots hold their sources' original values and all original slots
are untouched, every target slot ends up holding its (possibly re-routed)
source's original value. -/
theorem phase2_correct (tgt : List Slot) :
    ∀ (pairs : List (Slot × Slot)) (fresh : Nat) (m0 mem1 : Slot → Nat),
      (pairs.map Prod.snd).Nodup →
      (∀ q ∈ pairs, q.1 < fresh ∧ q.2 < fresh) →
      (∀ q ∈ pairs, q.2 ∈ tgt) →
      (∀ p ∈ (phase1Spec tgt fresh pairs).1, mem1 p.2 = m0 p.1) →
      (∀ q ∈ pairs, (q.1 ∉ tgt → mem1 q.1 = m0 q.1) ∧ (q.1 = q.2 → mem1 q.2 = m0 q.2)) →
      ∀ q ∈ pairs, applyCopies (phase1Spec tgt fresh pairs).2 mem1 q.2 = m0 q.1 := by
  intro pairs
  induction pairs with
  | nil => intro fresh m0 mem1 _ _ _ _ _ q hq; cases hq
  | cons a rest ih =>
    intro fresh m0 mem1 hnd hlt htgt hcs hkeep q hq
    obtain ⟨s, t⟩ := a
    have hndtail : (rest.map Prod.snd).Nodup := by
      rw [List.map_cons] at hnd
      exact (List.nodup_cons.mp hnd).2
    have htnotin : t ∉ rest.map Prod.snd := by
      rw [List.map_cons] at hnd
      exact (List.nodup_cons.mp hnd).1
    by_cases hst : s = t
    · rw [phase1Spec_skip tgt fresh s t rest hst] at hcs ⊢
      rcases List.mem_cons.mp hq with heq | hq'
      · subst heq
        have hnotar : ∀ c ∈ (phase1Spec tgt fresh rest).2, c.2 ≠ t := by
          intro c hc he
          exact htnotin (he ▸ phase1Spec_ups_tgt tgt rest fresh c hc)
        rw [applyCopies_not_target t _ mem1 hnotar]
        rw [hst]
        exact (hkeep (s, t) (List.mem_cons_self _ _)).2 hst
      · exact ih fresh m0 mem1 hndtail
          (fun q' hq' => hlt q' (List.mem_cons_of_mem _ hq'))
          (fun q' hq' => htgt q' (List.mem_cons_of_mem _ hq'))
          hcs
          (fun q' hq' => hkeep q' (List.mem_cons_of_mem _ hq'))
          q hq'
    · have htin : t ∈ tgt := htgt (s, t) (List.mem_cons_self _ _)
      have htlt : t < fresh := (hlt (s, t) (List.mem_cons_self _ _)).2
      by_cases hmem : s ∈ tgt
      · rw [phase1Spec_conflict tgt fresh s t rest hst hmem] at hcs ⊢
        have hfreshval : mem1 fresh = m0 s := hcs (s, fresh) (List.mem_cons_self _ _)
        rw [applyCopies_cons]
        show applyCopies (phase1Spec tgt (fresh + 1) rest).2
          (fun x => if x = t then mem1 fresh else mem1 x) q.2 = m0 q.1
        rcases List.mem_cons.mp hq with heq | hq'
        · subst heq
          have hnotar : ∀ c ∈ (phase1Spec tgt (fresh + 1) rest).2, c.2 ≠ t := by
            intro c hc he
            exact htnotin (he ▸ phase1Spec_ups_tgt tgt rest (fresh + 1) c hc)
          rw [applyCopies_not_target t _ _ hnotar]
          simp [hfreshval]
        · refine ih (fresh + 1) m0 (fun x => if x = t then mem1 fresh else mem1 x)
            hndtail ?_ ?_ ?_ ?_ q hq'
          · intro q' hq'
            have h := hlt q' (List.mem_cons_of_mem _ hq')
            exact ⟨Nat.lt_succ_of_lt h.1, Nat.lt_succ_of_lt h.2⟩
          · exact fun q' hq' => htgt q' (List.mem_cons_of_mem _ hq')
          · intro p hp
            have h1 : fresh + 1 ≤ p.2 := phase1Spec_cs_fresh tgt rest (fresh + 1) p hp
            have hne : ¬ p.2 = t :=
              slot_ne_of_lt_of_le t (fresh + 1) p.2 (Nat.lt_succ_of_lt htlt) h1
            show (if p.2 = t then mem1 fresh else mem1 p.2) = m0 p.1
            rw [if_neg hne]
            exact hcs p (List.mem_cons_of_mem _ hp)
          · intro q' hq'
            constructor
            · intro hnot
              have hne : ¬ q'.1 = t := fun he => hnot (he ▸ htin)
              show (if q'.1 = t then mem1 fresh else mem1 q'.1) = m0 q'.1
              rw [if_neg hne]
              exact (hkeep q' (List.mem_cons_of_mem _ hq')).1 hnot
            · intro heq2
              have hne : ¬ q'.2 = t := fun he =>
                htnotin (he ▸ List.mem_map_of_mem Prod.snd hq')
              show (if q'.2 = t then mem1 fresh else mem1 q'.2) = m0 q'.2
              rw [if_neg hne]
              exact (hkeep q' (List.mem_cons_of_mem _ hq')).2 heq2
      · rw [phase1Spec_plain tgt fresh s t rest hst hmem] at hcs ⊢
        have hsval : mem1 s = m0 s := (hkeep (s, t) (List.mem_cons_self _ _)).1 hmem
        rw [applyCopies_cons]
        show applyCopies (phase1Spec tgt fresh rest).2
          (fun x => if x = t then mem1 s else mem1 x) q.2 = m0 q.1
        rcases List.mem_cons.mp hq with heq | hq'
        · subst heq
          have hnotar : ∀ c ∈ (phase1Spec tgt fresh rest).2, c.2 ≠ t := by
            intro c hc he
            exact htnotin (he ▸ phase1Spec_ups_tgt tgt rest fresh c hc)
          rw [applyCopies_not_target t _ _ hnotar]
          simp [hsval]
        · refine ih fresh m0 (fun x => if x = t then mem1 s else mem1 x)
            hndtail
            (fun q' hq' => hlt q' (List.mem_cons_of_mem _ hq'))
            (fun q' hq' => htgt q' (List.mem_cons_of_mem _ hq'))
            ?_ ?_ q hq'
          · intro p hp
            have h1 : fresh ≤ p.2 := phase1Spec_cs_fresh tgt rest fresh p hp
            have hne : ¬ p.2 = t := slot_ne_of_lt_of_le t fresh p.2 htlt h1
            show (if p.2 = t then mem1 s else mem1 p.2) = m0 p.1
            rw [if_neg hne]
            exact hcs p hp
          · intro q' hq'
            constructor
            · intro hnot
              have hne : ¬ q'.1 = t := fun he => hnot (he ▸ htin)
              show (if q'.1 = t then mem1 s else mem1 q'.1) = m0 q'.1
              rw [if_neg hne]
              exact (hkeep q' (List.mem_cons_of_mem _ hq')).1 hnot
            · intro heq2
              have hne : ¬ q'.2 = t := fun he =>
                htnotin (he ▸ List.mem_map_of_mem Prod.snd hq')
              show (if q'.2 = t then mem1 s else mem1 q'.2) = m0 q'.2
              rw [if_neg hne]
              exact (hkeep q' (List.mem_cons_of_mem _ hq')).2 heq2

/-- Full slot-level correctness of the two-phase parallel move: applying the
routing copies and then the second-loop copies writes every target slot
with its source slot's original value. -/
theorem parallel_move_pure (tgt : List Slot) (pairs : List (Slot × Slot)) (fresh : Nat)
    (m0 : Slot → Nat)
    (hnd : (pairs.map Prod.snd).Nodup)
    (hlt : ∀ q ∈ pairs, q.1 < fresh ∧ q.2 < fresh)
    (htgt : ∀ q ∈ pairs, q.2 ∈ tgt) :
    ∀ q ∈ pairs,
      applyCopies ((phase1Spec tgt fresh pairs).1 ++ (phase1Spec tgt fresh pairs).2) m0 q.2
        = m0 q.1 := by
  intro q hq
  rw [applyCopies_append]
  refine phase2_correct tgt pairs fresh m0 (applyCopies (phase1Spec tgt fresh pairs).1 m0)
    hnd hlt htgt ?_ ?_ q hq
  · exact phase1_mem_cs tgt pairs fresh m0 (fun q' hq' => (hlt q' hq').1)
  · intro q' hq'
    constructor
    · intro _
      exact phase1_mem_low tgt pairs fresh m0 q'.1 (hlt q' hq').1
    · intro _
      exact phase1_mem_low tgt pairs fresh m0 q'.2 (hlt q' hq').2

/-- Execution of concatenated instruction lists. -/
theorem exec_append (loc : Value → ValueLoc) (m : Machine) (l1 l2 : List MoveInst) :
    exec loc m (l1 ++ l2) = exec loc (exec loc m l1) l2 := by
  unfold exec
  rw [List.foldl_append]

/-- A fill immediately followed by the matching spill copies one stack slot
to another (on the memory component). -/
theorem exec_fill_spill_mem (loc : Value → ValueLoc) (m : Machine)
    (temp src dest : Value) (r : RegU) (sa da : Slot)
    (ht : loc temp = .reg r) (hs : loc src = .stack sa) (hd : loc dest = .stack da) :
    (exec loc m [.fill temp src, .spill dest temp]).mem
      = fun x => if x = da then m.mem sa else m.mem x := by
  unfold exec
  simp only [List.foldl_cons, List.foldl_nil]
  simp only [execInst]
  rw [ht, hs, hd]
  simp

/-- The explicit form of a successful `fill_temp_register`. -/
theorem fill_temp_register_spec (st : AState) (val : Value) (r0 : RegU) (rs : List RegU)
    (hfr : st.freeRegs = r0 :: rs) :
    fill_temp_register st val = some (st.nextValue, r0,
      { locations := fun v => if v = st.nextValue then .reg r0 else st.locations v
        nextValue := st.nextValue + 1
        nextSlot := st.nextSlot
        freeRegs := rs
        emitted := st.emitted ++ [.fill st.nextValue val] }) := by
  unfold fill_temp_register
  rw [hfr]

/-- The step equation of `pass1` on a nonempty entry list (the literal
unfolding of its recursive case). -/
theorem pass1_cons (tgtSlots : List Slot) (st : AState) (k : Nat)
    (arg targetArg : Value) (rest : List (Nat × Value × Value)) :
    pass1 tgtSlots st ((k, arg, targetArg) :: rest)
      = match st.locations arg, st.locations targetArg with
        | .stack argSS, .stack targetSS =>
          if argSS = targetSS then
            pass1 tgtSlots st rest
          else if argSS ∈ tgtSlots then
            match fill_temp_register st arg with
            | none => none
            | some (temp, r, st1) =>
              match pass1 tgtSlots
                  { locations := fun v =>
                      if v = st1.nextValue then .stack st1.nextSlot else st1.locations v
                    nextValue := st1.nextValue + 1
                    nextSlot := st1.nextSlot + 1
                    freeRegs := r :: st1.freeRegs
                    emitted := st1.emitted ++ [.spill st1.nextValue temp] } rest with
              | none => none
              | some (stR, ups) => some (stR, (k, st1.nextValue, targetArg) :: ups)
          else
            match pass1 tgtSlots st rest with
            | none => none
            | some (stR, ups) => some (stR, (k, arg, targetArg) :: ups)
        | _, _ => none := rfl

/-- Simulation of the first loop of `move_ebb_arguments`: it succeeds,
keeps the register pool, preserves all existing locations, and its emitted
instructions execute (under any location map extending the final one) as
the routing copies of `phase1Spec`; its update list carries exactly the
second-loop copies of `phase1Spec` at the slot level. -/
theorem pass1_sim (tgtSlots : List Slot) :
    ∀ (entries : List (Nat × Value × Value)) (st : AState) (r0 : RegU) (rs : List RegU),
      st.freeRegs = r0 :: rs →
      (∀ e ∈ entries, (∃ sa, st.locations e.2.1 = .stack sa) ∧
        (∃ ta, st.locations e.2.2 = .stack ta) ∧
        e.2.1 < st.nextValue ∧ e.2.2 < st.nextValue) →
      ∃ st1 ups delta,
        pass1 tgtSlots st entries = some (st1, ups) ∧
        st1.freeRegs = st.freeRegs ∧
        st.nextValue ≤ st1.nextValue ∧
        st.nextSlot ≤ st1.nextSlot ∧
        (∀ v, v < st.nextValue → st1.locations v = st.locations v) ∧
        st1.emitted = st.emitted ++ delta ∧
        delta.length = 2 * (phase1Spec tgtSlots st.nextSlot
          (entries.map (fun e => (slotD st.locations e.2.1, slotD st.locations e.2.2)))).1.length ∧
        (∀ e ∈ ups, (∃ sa, st1.locations e.2.1 = .stack sa) ∧
          (∃ ta, st1.locations e.2.2 = .stack ta) ∧
          e.2.1 < st1.nextValue ∧ e.2.2 < st1.nextValue) ∧
        ups.map (fun e => (slotD st1.locations e.2.1, slotD st1.locations e.2.2))
          = (phase1Spec tgtSlots st.nextSlot
              (entries.map (fun e => (slotD st.locations e.2.1, slotD st.locations e.2.2)))).2 ∧
        (∀ (L : Value → ValueLoc) (M : Machine),
          (∀ v, v < st1.nextValue → L v = st1.locations v) →
          (exec L M delta).mem = applyCopies
            (phase1Spec tgtSlots st.nextSlot
              (entries.map (fun e => (slotD st.locations e.2.1, slotD st.locations e.2.2)))).1
            M.mem) := by
  intro entries
  induction entries with
  | nil =>
    intro st r0 rs hfr _
    refine ⟨st, [], [], rfl, rfl, Nat.le_refl _, Nat.le_refl _, fun v _ => rfl, by simp,
      by simp [phase1Spec], fun e he => absurd he (List.not_mem_nil e), by simp [phase1Spec],
      ?_⟩
    intro L M _
    simp [exec, applyCopies, phase1Spec]
  | cons e0 rest ih =>
    intro st r0 rs hfr hent
    obtain ⟨k, arg, tgtArg⟩ := e0
    obtain ⟨⟨sa, ha⟩, ⟨ta, hb⟩, harglt, htgtlt⟩ :=
      hent (k, arg, tgtArg) (List.mem_cons_self _ _)
    have henttail : ∀ e ∈ rest, (∃ s1, st.locations e.2.1 = .stack s1) ∧
        (∃ t1, st.locations e.2.2 = .stack t1) ∧
        e.2.1 < st.nextValue ∧ e.2.2 < st.nextValue :=
      fun e he => hent e (List.mem_cons_of_mem _ he)
    have hsda : slotD st.locations arg = sa := by unfold slotD; rw [ha]
    have hsdb : slotD st.locations tgtArg = ta := by unfold slotD; rw [hb]
    have hmapcons : ((k, arg, tgtArg) :: rest).map
          (fun e => (slotD st.locations e.2.1, slotD st.locations e.2.2))
        = (sa, ta) :: rest.map (fun e => (slotD st.locations e.2.1, slotD st.locations e.2.2)) := by
      rw [List.map_cons]
      rw [show (slotD st.locations (k, arg, tgtArg).2.1,
            slotD st.locations (k, arg, tgtArg).2.2) = (sa, ta) by rw [hsda, hsdb]]
    by_cases hst : sa = ta
    · -- the argument already shares the target's slot: skipped entirely
      have hp1 : pass1 tgtSlots st ((k, arg, tgtArg) :: rest) = pass1 tgtSlots st rest := by
        rw [pass1_cons]
        simp only [ha, hb]
        rw [if_pos hst]
      rcases ih st r0 rs hfr henttail with
        ⟨st1, ups, delta, hpass, hfr1, hnv, hns, hloc, hem, hlen, hupscond, hupsmap, hexec⟩
      refine ⟨st1, ups, delta, by rw [hp1]; exact hpass, hfr1, hnv, hns, hloc, hem, ?_,
        hupscond, ?_, ?_⟩
      · rw [hmapcons, phase1Spec_skip tgtSlots st.nextSlot sa ta _ hst]
        exact hlen
      · rw [hmapcons, phase1Spec_skip tgtSlots st.nextSlot sa ta _ hst]
        exact hupsmap
      · intro L M hL
        rw [hmapcons, phase1Spec_skip tgtSlots st.nextSlot sa ta _ hst]
        exact hexec L M hL
    · by_cases hin : sa ∈ tgtSlots
      · -- conflicting source: routed through a temp register and a new slot
        refine ?_
        have hp1 : pass1 tgtSlots st ((k, arg, tgtArg) :: rest)
            = (match pass1 tgtSlots
                { locations := fun v => if v = st.nextValue + 1 then .stack st.nextSlot
                    else if v = st.nextValue then .reg r0 else st.locations v
                  nextValue := st.nextValue + 2
                  nextSlot := st.nextSlot + 1
                  freeRegs := r0 :: rs
                  emitted := (st.emitted ++ [.fill st.nextValue arg])
                    ++ [.spill (st.nextValue + 1) st.nextValue] } rest with
               | none => none
               | some (stR, ups) => some (stR, (k, st.nextValue + 1, tgtArg) :: ups)) := by
          rw [pass1_cons]
          simp only [ha, hb]
          rw [if_neg hst, if_pos hin]
          rw [fill_temp_register_spec st arg r0 rs hfr]
        set st2 : AState :=
          { locations := fun v => if v = st.nextValue + 1 then .stack st.nextSlot
              else if v = st.nextValue then .reg r0 else st.locations v
            nextValue := st.nextValue + 2
            nextSlot := st.nextSlot + 1
            freeRegs := r0 :: rs
            emitted := (st.emitted ++ [.fill st.nextValue arg])
              ++ [.spill (st.nextValue + 1) st.nextValue] } with hst2
        have hloc2 : ∀ v, v < st.nextValue → st2.locations v = st.locations v := by
          intro v hv
          show (if v = st.nextValue + 1 then ValueLoc.stack st.nextSlot
            else if v = st.nextValue then ValueLoc.reg r0 else st.locations v) = st.locations v
          rw [if_neg (Nat.ne_of_lt (Nat.lt_succ_of_lt hv)), if_neg (Nat.ne_of_lt hv)]
        have hent2 : ∀ e ∈ rest, (∃ s1, st2.locations e.2.1 = .stack s1) ∧
            (∃ t1, st2.locations e.2.2 = .stack t1) ∧
            e.2.1 < st2.nextValue ∧ e.2.2 < st2.nextValue := by
          intro e he
          obtain ⟨⟨s1, h1⟩, ⟨t1, h2⟩, h3, h4⟩ := henttail e he
          refine ⟨⟨s1, by rw [hloc2 _ h3]; exact h1⟩, ⟨t1, by rw [hloc2 _ h4]; exact h2⟩,
            ?_, ?_⟩
          · exact Nat.lt_of_lt_of_le h3 (Nat.le_add_right _ 2)
          · exact Nat.lt_of_lt_of_le h4 (Nat.le_add_right _ 2)
        rcases ih st2 r0 rs rfl hent2 with
          ⟨st1, ups, delta, hpass, hfr1, hnv, hns, hloc1, hem, hlen, hupscond, hupsmap, hexec⟩
        have hmapeq : rest.map (fun e => (slotD st2.locations e.2.1, slotD st2.locations e.2.2))
            = rest.map (fun e => (slotD st.locations e.2.1, slotD st.locations e.2.2)) := by
          refine List.map_congr_left ?_
          intro e he
          obtain ⟨_, _, h3, h4⟩ := henttail e he
          rw [show slotD st2.locations e.2.1 = slotD st.locations e.2.1 by
              unfold slotD; rw [hloc2 _ h3],
            show slotD st2.locations e.2.2 = slotD st.locations e.2.2 by
              unfold slotD; rw [hloc2 _ h4]]
        have hnv' : st.nextValue + 2 ≤ st1.nextValue := hnv
        have hlocchain : ∀ v, v < st.nextValue → st1.locations v = st.locations v := by
          intro v hv
          rw [hloc1 v (Nat.lt_of_lt_of_le hv (Nat.le_add_right _ 2)), hloc2 v hv]
        have hlocTemp : st1.locations st.nextValue = .reg r0 := by
          rw [hloc1 st.nextValue (by exact Nat.lt_add_of_pos_right (by decide))]
          show (if st.nextValue = st.nextValue + 1 then ValueLoc.stack st.nextSlot
            else if st.nextValue = st.nextValue then ValueLoc.reg r0
            else st.locations st.nextValue) = ValueLoc.reg r0
          rw [if_neg (Nat.ne_of_lt (Nat.lt_succ_self _)), if_pos rfl]
        have hlocTheTemp : st1.locations (st.nextValue + 1) = .stack st.nextSlot := by
          rw [hloc1 (st.nextValue + 1) (by exact Nat.add_lt_add_left (by decide) _)]
          show (if st.nextValue + 1 = st.nextValue + 1 then ValueLoc.stack st.nextSlot
            else if st.nextValue + 1 = st.nextValue then ValueLoc.reg r0
            else st.locations (st.nextValue + 1)) = ValueLoc.stack st.nextSlot
          rw [if_pos rfl]
        have hlocTgt : st1.locations tgtArg = .stack ta := by
          rw [hlocchain tgtArg htgtlt]
          exact hb
        refine ⟨st1, (k, st.nextValue + 1, tgtArg) :: ups,
          [.fill st.nextValue arg, .spill (st.nextValue + 1) st.nextValue] ++ delta,
          ?_, ?_, ?_, ?_, hlocchain, ?_, ?_, ?_, ?_, ?_⟩
        · rw [hp1, hpass]
        · exact hfr1.trans hfr.symm
        · exact Nat.le_trans (Nat.le_add_right _ 2) hnv
        · exact Nat.le_trans (Nat.le_add_right _ 1) hns
        · rw [hem]
          show _ = st.emitted ++ ([MoveInst.fill st.nextValue arg,
            MoveInst.spill (st.nextValue + 1) st.nextValue] ++ delta)
          simp [List.append_assoc]
        · rw [hmapcons, phase1Spec_conflict tgtSlots st.nextSlot sa ta _ hst hin]
          show ([MoveInst.fill st.nextValue arg,
            MoveInst.spill (st.nextValue + 1) st.nextValue] ++ delta).length = _
          rw [List.length_append, hlen, hmapeq]
          show 2 + 2 * _ = 2 * (_ + 1)
          ring
        · intro e he
          rcases List.mem_cons.mp he with rfl | he'
          · exact ⟨⟨st.nextSlot, hlocTheTemp⟩, ⟨ta, hlocTgt⟩,
              Nat.lt_of_lt_of_le (Nat.add_lt_add_left (by decide) _) hnv,
              Nat.lt_of_lt_of_le (Nat.lt_of_lt_of_le htgtlt (Nat.le_add_right _ 2)) hnv⟩
          · exact hupscond e he'
        · rw [hmapcons, phase1Spec_conflict tgtSlots st.nextSlot sa ta _ hst hin]
          rw [List.map_cons]
          rw [show (slotD st1.locations (k, st.nextValue + 1, tgtArg).2.1,
              slotD st1.locations (k, st.nextValue + 1, tgtArg).2.2)
              = (st.nextSlot, ta) by
            show (slotD st1.locations (st.nextValue + 1), slotD st1.locations tgtArg) = _
            unfold slotD
            rw [hlocTheTemp, hlocTgt]]
          rw [hupsmap, hmapeq]
        · intro L M hL
          rw [hmapcons, phase1Spec_conflict tgtSlots st.nextSlot sa ta _ hst hin]
          rw [exec_append]
          have hLtemp : L st.nextValue = .reg r0 := by
            rw [hL st.nextValue (Nat.lt_of_lt_of_le (Nat.lt_add_of_pos_right (by decide)) hnv)]
            exact hlocTemp
          have hLarg : L arg = .stack sa := by
            rw [hL arg (Nat.lt_of_lt_of_le
              (Nat.lt_of_lt_of_le harglt (Nat.le_add_right _ 2)) hnv)]
            rw [hlocchain arg harglt]
            exact ha
          have hLtheTemp : L (st.nextValue + 1) = .stack st.nextSlot := by
            rw [hL (st.nextValue + 1)
              (Nat.lt_of_lt_of_le (Nat.add_lt_add_left (by decide) _) hnv)]
            exact hlocTheTemp
          rw [applyCopies_cons]
          have hpair := exec_fill_spill_mem L M st.nextValue arg (st.nextValue + 1) r0
            sa st.nextSlot hLtemp hLarg hLtheTemp
          rw [hexec L (exec L M [.fill st.nextValue arg,
            .spill (st.nextValue + 1) st.nextValue]) hL]
          rw [hmapeq, hpair]
      · -- plain source: copied directly in the second loop
        have hp1 : pass1 tgtSlots st ((k, arg, tgtArg) :: rest)
            = (match pass1 tgtSlots st rest with
               | none => none
               | some (stR, ups) => some (stR, (k, arg, tgtArg) :: ups)) := by
          rw [pass1_cons]
          simp only [ha, hb]
          rw [if_neg hst, if_neg hin]
        rcases ih st r0 rs hfr henttail with
          ⟨st1, ups, delta, hpass, hfr1, hnv, hns, hloc, hem, hlen, hupscond, hupsmap, hexec⟩
        refine ⟨st1, (k, arg, tgtArg) :: ups, delta, ?_, hfr1, hnv, hns, hloc, hem, ?_, ?_,
          ?_, ?_⟩
        · rw [hp1, hpass]
        · rw [hmapcons, phase1Spec_plain tgtSlots st.nextSlot sa ta _ hst hin]
          exact hlen
        · intro e he
          rcases List.mem_cons.mp he with rfl | he'
          · exact ⟨⟨sa, by rw [hloc arg harglt]; exact ha⟩,
              ⟨ta, by rw [hloc tgtArg htgtlt]; exact hb⟩,
              Nat.lt_of_lt_of_le harglt hnv, Nat.lt_of_lt_of_le htgtlt hnv⟩
          · exact hupscond e he'
        · rw [hmapcons, phase1Spec_plain tgtSlots st.nextSlot sa ta _ hst hin]
          rw [List.map_cons]
          rw [show (slotD st1.locations (k, arg, tgtArg).2.1,
              slotD st1.locations (k, arg, tgtArg).2.2) = (sa, ta) by
            show (slotD st1.locations arg, slotD st1.locations tgtArg) = _
            unfold slotD
            rw [hloc arg harglt, hloc tgtArg htgtlt, ha, hb]]
          rw [hupsmap]
        · intro L M hL
          rw [hmapcons, phase1Spec_plain tgtSlots st.nextSlot sa ta _ hst hin]
          exact hexec L M hL

/-- The step equation of `pass2` on a nonempty update list. -/
theorem pass2_cons (st : AState) (k : Nat) (arg targetArg : Value)
    (rest : List (Nat × Value × Value)) :
    pass2 st ((k, arg, targetArg) :: rest)
      = match fill_temp_register st arg with
        | none => none
        | some (temp, r, st1) =>
          pass2
            { locations := fun v =>
                if v = st1.nextValue then st1.locations targetArg else st1.locations v
              nextValue := st1.nextValue + 1
              nextSlot := st1.nextSlot
              freeRegs := r :: st1.freeRegs
              emitted := st1.emitted ++ [.spill st1.nextValue temp] } rest := rfl

/-- Simulation of the second loop of `move_ebb_arguments`: it succeeds,
preserves existing locations, and its emitted instructions execute (under
any location map extending the final one) as the slot-level copies of its
update list. -/
theorem pass2_sim :
    ∀ (ups : List (Nat × Value × Value)) (st : AState) (r0 : RegU) (rs : List RegU),
      st.freeRegs = r0 :: rs →
      (∀ e ∈ ups, (∃ sa, st.locations e.2.1 = .stack sa) ∧
        (∃ ta, st.locations e.2.2 = .stack ta) ∧
        e.2.1 < st.nextValue ∧ e.2.2 < st.nextValue) →
      ∃ st2 delta,
        pass2 st ups = some st2 ∧
        st.nextValue ≤ st2.nextValue ∧
        (∀ v, v < st.nextValue → st2.locations v = st.locations v) ∧
        st2.emitted = st.emitted ++ delta ∧
        delta.length = 2 * ups.length ∧
        (∀ (L : Value → ValueLoc) (M : Machine),
          (∀ v, v < st2.nextValue → L v = st2.locations v) →
          (exec L M delta).mem = applyCopies
            (ups.map (fun e => (slotD st.locations e.2.1, slotD st.locations e.2.2)))
            M.mem) := by
  intro ups
  induction ups with
  | nil =>
    intro st r0 rs hfr _
    refine ⟨st, [], rfl, Nat.le_refl _, fun v _ => rfl, by simp, by simp, ?_⟩
    intro L M _
    simp [exec, applyCopies]
  | cons e0 rest ih =>
    intro st r0 rs hfr hent
    obtain ⟨k, arg, tgtArg⟩ := e0
    obtain ⟨⟨sa, ha⟩, ⟨ta, hb⟩, harglt, htgtlt⟩ :=
      hent (k, arg, tgtArg) (List.mem_cons_self _ _)
    have henttail : ∀ e ∈ rest, (∃ s1, st.locations e.2.1 = .stack s1) ∧
        (∃ t1, st.locations e.2.2 = .stack t1) ∧
        e.2.1 < st.nextValue ∧ e.2.2 < st.nextValue :=
      fun e he => hent e (List.mem_cons_of_mem _ he)
    have hsda : slotD st.locations arg = sa := by unfold slotD; rw [ha]
    have hsdb : slotD st.locations tgtArg = ta := by unfold slotD; rw [hb]
    have hp2 : pass2 st ((k, arg, tgtArg) :: rest)
        = pass2
            { locations := fun v => if v = st.nextValue + 1 then
                  (if tgtArg = st.nextValue then ValueLoc.reg r0 else st.locations tgtArg)
                else if v = st.nextValue then ValueLoc.reg r0 else st.locations v
              nextValue := st.nextValue + 2
              nextSlot := st.nextSlot
              freeRegs := r0 :: rs
              emitted := (st.emitted ++ [.fill st.nextValue arg])
                ++ [.spill (st.nextValue + 1) st.nextValue] } rest := by
      rw [pass2_cons]
      rw [fill_temp_register_spec st arg r0 rs hfr]
    set st2 : AState :=
      { locations := fun v => if v = st.nextValue + 1 then
            (if tgtArg = st.nextValue then ValueLoc.reg r0 else st.locations tgtArg)
          else if v = st.nextValue then ValueLoc.reg r0 else st.locations v
        nextValue := st.nextValue + 2
        nextSlot := st.nextSlot
        freeRegs := r0 :: rs
        emitted := (st.emitted ++ [.fill st.nextValue arg])
          ++ [.spill (st.nextValue + 1) st.nextValue] } with hst2
    have hloc2 : ∀ v, v < st.nextValue → st2.locations v = st.locations v := by
      intro v hv
      show (if v = st.nextValue + 1 then
          (if tgtArg = st.nextValue then ValueLoc.reg r0 else st.locations tgtArg)
        else if v = st.nextValue then ValueLoc.reg r0 else st.locations v) = st.locations v
      rw [if_neg (Nat.ne_of_lt (Nat.lt_succ_of_lt hv)), if_neg (Nat.ne_of_lt hv)]
    have hlocDest : st2.locations (st.nextValue + 1) = .stack ta := by
      show (if st.nextValue + 1 = st.nextValue + 1 then
          (if tgtArg = st.nextValue then ValueLoc.reg r0 else st.locations tgtArg)
        else _) = ValueLoc.stack ta
      rw [if_pos rfl, if_neg (Nat.ne_of_lt htgtlt)]
      exact hb
    have hlocTemp : st2.locations st.nextValue = .reg r0 := by
      show (if st.nextValue = st.nextValue + 1 then
          (if tgtArg = st.nextValue then ValueLoc.reg r0 else st.locations tgtArg)
        else if st.nextValue = st.nextValue then ValueLoc.reg r0
        else st.locations st.nextValue) = ValueLoc.reg r0
      rw [if_neg (Nat.ne_of_lt (Nat.lt_succ_self _)), if_pos rfl]
    have hent2 : ∀ e ∈ rest, (∃ s1, st2.locations e.2.1 = .stack s1) ∧
        (∃ t1, st2.locations e.2.2 = .stack t1) ∧
        e.2.1 < st2.nextValue ∧ e.2.2 < st2.nextValue := by
      intro e he
      obtain ⟨⟨s1, h1⟩, ⟨t1, h2⟩, h3, h4⟩ := henttail e he
      exact ⟨⟨s1, by rw [hloc2 _ h3]; exact h1⟩, ⟨t1, by rw [hloc2 _ h4]; exact h2⟩,
        Nat.lt_of_lt_of_le h3 (Nat.le_add_right _ 2),
        Nat.lt_of_lt_of_le h4 (Nat.le_add_right _ 2)⟩
    rcases ih st2 r0 rs rfl hent2 with ⟨st3, delta, hpass, hnv, hloc3, hem, hlen, hexec⟩
    have hmapeq : rest.map (fun e => (slotD st2.locations e.2.1, slotD st2.locations e.2.2))
        = rest.map (fun e => (slotD st.locations e.2.1, slotD st.locations e.2.2)) := by
      refine List.map_congr_left ?_
      intro e he
      obtain ⟨_, _, h3, h4⟩ := henttail e he
      rw [show slotD st2.locations e.2.1 = slotD st.locations e.2.1 by
          unfold slotD; rw [hloc2 _ h3],
        show slotD st2.locations e.2.2 = slotD st.locations e.2.2 by
          unfold slotD; rw [hloc2 _ h4]]
    refine ⟨st3,
      [.fill st.nextValue arg, .spill (st.nextValue + 1) st.nextValue] ++ delta,
      ?_, ?_, ?_, ?_, ?_, ?_⟩
    · rw [hp2]
      exact hpass
    · exact Nat.le_trans (Nat.le_add_right _ 2) hnv
    · intro v hv
      rw [hloc3 v (Nat.lt_of_lt_of_le hv (Nat.le_add_right _ 2)), hloc2 v hv]
    · rw [hem]
      show _ = st.emitted ++ ([MoveInst.fill st.nextValue arg,
        MoveInst.spill (st.nextValue + 1) st.nextValue] ++ delta)
      simp [List.append_assoc]
    · show ([MoveInst.fill st.nextValue arg,
        MoveInst.spill (st.nextValue + 1) st.nextValue] ++ delta).length = _
      rw [List.length_append, hlen, List.length_cons]
      show 2 + 2 * _ = 2 * (_ + 1)
      ring
    · intro L M hL
      rw [exec_append]
      have hLtemp : L st.nextValue = .reg r0 := by
        rw [hL st.nextValue (Nat.lt_of_lt_of_le (Nat.lt_add_of_pos_right (by decide)) hnv)]
        exact (hloc3 st.nextValue (Nat.lt_add_of_pos_right (by decide))).trans hlocTemp
      have hLarg : L arg = .stack sa := by
        rw [hL arg (Nat.lt_of_lt_of_le
          (Nat.lt_of_lt_of_le harglt (Nat.le_add_right _ 2)) hnv)]
        rw [hloc3 arg (Nat.lt_of_lt_of_le harglt (Nat.le_add_right _ 2)), hloc2 arg harglt]
        exact ha
      have hLdest : L (st.nextValue + 1) = .stack ta := by
        rw [hL (st.nextValue + 1)
          (Nat.lt_of_lt_of_le (Nat.add_lt_add_left (by decide) _) hnv)]
        exact (hloc3 (st.nextValue + 1) (Nat.add_lt_add_left (by decide) _)).trans hlocDest
      rw [List.map_cons]
      rw [show (slotD st.locations (k, arg, tgtArg).2.1,
          slotD st.locations (k, arg, tgtArg).2.2) = (sa, ta) by rw [hsda, hsdb]]
      rw [applyCopies_cons]
      have hpair := exec_fill_spill_mem L M st.nextValue arg (st.nextValue + 1) r0
        sa ta hLtemp hLarg hLdest
      rw [hexec L (exec L M [.fill st.nextValue arg,
        .spill (st.nextValue + 1) st.nextValue]) hL]
      rw [hmapeq, hpair]

/-- Collecting the target slots succeeds when every target parameter is on
the stack, and yields the `slotD` slots. -/
theorem mapM_slotOf (st : AState) :
    ∀ (tps : List Value), (∀ v ∈ tps, ∃ ss, st.locations v = .stack ss) →
      tps.mapM (slotOf st) = some (tps.map (slotD st.locations)) := by
  intro tps
  induction tps with
  | nil => intro _; rfl
  | cons v rest ih =>
    intro h
    obtain ⟨ss, hss⟩ := h v (List.mem_cons_self _ _)
    have h1 : slotOf st v = some ss := by unfold slotOf; rw [hss]
    have h2 : slotD st.locations v = ss := by unfold slotD; rw [hss]
    rw [List.map_cons, h2]
    rw [List.mapM_cons, h1, ih (fun w hw => h w (List.mem_cons_of_mem _ hw))]
    rfl

/-- When every argument already sits in its target's slot, the first loop
performs and records nothing. -/
theorem pass1_all_equal (tgtSlots : List Slot) :
    ∀ (entries : List (Nat × Value × Value)) (st : AState),
      (∀ e ∈ entries, ∃ ss, st.locations e.2.1 = .stack ss ∧
        st.locations e.2.2 = .stack ss) →
      pass1 tgtSlots st entries = some (st, []) := by
  intro entries
  induction entries with
  | nil => intro st _; rfl
  | cons e0 rest ih =>
    intro st h
    obtain ⟨k, arg, tgtArg⟩ := e0
    obtain ⟨ss, h1, h2⟩ := h (k, arg, tgtArg) (List.mem_cons_self _ _)
    rw [pass1_cons]
    simp only [h1, h2, if_true]
    exact ih st (fun e he => h e (List.mem_cons_of_mem _ he))

/-- Mapping a slot-projection over the enumerated entry list is mapping it
over the underlying pair list. -/
theorem enum_entry_map (g : Value × Value → Slot × Slot) (l : List (Value × Value)) :
    ((l.enum.map (fun p => (p.1, p.2.1, p.2.2))).map
        (fun e : Nat × Value × Value => g e.2))
      = l.map g := by
  rw [List.map_map]
  have h1 : ((fun e : Nat × Value × Value => g e.2)
      ∘ (fun p : Nat × (Value × Value) => (p.1, p.2.1, p.2.2)))
      = (g ∘ Prod.snd) := by
    funext p
    rfl
  rw [h1, ← List.map_map, List.enum_map_snd]

/-- Membership in the enumerated entry list projects to the pair list. -/
theorem enum_entry_mem (l : List (Value × Value)) (e : Nat × Value × Value)
    (he : e ∈ l.enum.map (fun p => (p.1, p.2.1, p.2.2))) : e.2 ∈ l := by
  rcases List.mem_map.mp he with ⟨p, hp, hpe⟩
  have := List.snd_mem_of_mem_enum hp
  rw [← hpe]
  exact this

/-- C2: the minimal allocator's parallel-copy sequence for a jump carrying
block arguments is correct.  (i) In general — for stack-located arguments
and target parameters with pairwise-distinct target slots and a free
register — `move_ebb_arguments` succeeds and executing its emitted fill and
spill instructions leaves every target parameter's stack slot holding the
value its source slot held before, never losing a value to premature
overwrite (sources whose slot reappears among the target slots are routed
through a temporary register and a brand-new stack slot).  (ii) When every
argument already sits in its target's slot, no copy at all is emitted — the
state is returned unchanged.  (iii) On the concrete two-slot swap (source
slots S1 holding `a` = 10 and S2 holding `b` = 20, targets expecting
(S2, S1)), the final state is S1 = b, S2 = a; the emitted sequence routes
both operands through the temporary register and the brand-new stack slots
2 and 3. -/
theorem parallel_copy_correct :
    (∀ (st : AState) (tps args : List Value) (r0 : RegU) (rs : List RegU) (M : Machine),
      st.freeRegs = r0 :: rs →
      st.emitted = [] →
      args.length = tps.length →
      (∀ v ∈ tps, ∃ ss, st.locations v = .stack ss) →
      (∀ v ∈ args, ∃ ss, st.locations v = .stack ss) →
      (∀ v ∈ tps, slotD st.locations v < st.nextSlot) →
      (∀ v ∈ args, slotD st.locations v < st.nextSlot) →
      (∀ v ∈ tps, v < st.nextValue) →
      (∀ v ∈ args, v < st.nextValue) →
      (tps.map (slotD st.locations)).Nodup →
      ∃ st', move_ebb_arguments st tps args = some st' ∧
        ∀ p ∈ args.zip tps,
          (exec st'.locations M st'.emitted).mem (slotD st.locations p.2)
            = M.mem (slotD st.locations p.1)) ∧
    (∀ (st : AState) (tps args : List Value),
      (∀ v ∈ tps, ∃ ss, st.locations v = .stack ss) →
      (∀ p ∈ args.zip tps, ∃ ss, st.locations p.1 = .stack ss ∧
        st.locations p.2 = .stack ss) →
      move_ebb_arguments st tps args = some st) ∧
    ((move_ebb_arguments swapSt [2, 3] [0, 1]).map
        (fun st' => ((exec st'.locations swapMachine st'.emitted).mem 0,
          (exec st'.locations swapMachine st'.emitted).mem 1))
      = some (20, 10)) ∧
    ((move_ebb_arguments swapSt [2, 3] [0, 1]).map (fun st' => st'.emitted)
      = some [.fill 4 0, .spill 5 4, .fill 6 1, .spill 7 6,
              .fill 8 5, .spill 9 8, .fill 10 7, .spill 11 10]) ∧
    ((move_ebb_arguments swapSt [2, 3] [0, 1]).map
        (fun st' => (st'.locations 5, st'.locations 7))
      = some (.stack 2, .stack 3)) := by
  refine ⟨?_, ?_, ?_, ?_, ?_⟩
  · intro st tps args r0 rs M hfr hemp hlen htstack hastack htslt haslt htv hav hnodup
    have hrw : move_ebb_arguments st tps args
        = (match pass1 (tps.map (slotD st.locations)) st
            ((args.zip tps).enum.map (fun p => (p.1, p.2.1, p.2.2))) with
          | none => none
          | some (st1, updates) => pass2 st1 updates) := by
      unfold move_ebb_arguments
      rw [mapM_slotOf st tps htstack]
    have hentcond : ∀ e ∈ (args.zip tps).enum.map (fun p => (p.1, p.2.1, p.2.2)),
        (∃ sa, st.locations e.2.1 = .stack sa) ∧
        (∃ ta, st.locations e.2.2 = .stack ta) ∧
        e.2.1 < st.nextValue ∧ e.2.2 < st.nextValue := by
      intro e he
      have hz := enum_entry_mem _ e he
      obtain ⟨h1, h2⟩ := List.of_mem_zip hz
      exact ⟨hastack _ h1, htstack _ h2, hav _ h1, htv _ h2⟩
    rcases pass1_sim (tps.map (slotD st.locations))
        ((args.zip tps).enum.map (fun p => (p.1, p.2.1, p.2.2))) st r0 rs hfr hentcond with
      ⟨st1, ups, delta1, hpass1, hfr1, hnv1, hns1, hloc1, hem1, hlen1, hupscond,
        hupsmap, hexec1⟩
    rcases pass2_sim ups st1 r0 rs (hfr1.trans hfr) hupscond with
      ⟨st2, delta2, hpass2, hnv2, hloc2, hem2, hlen2, hexec2⟩
    refine ⟨st2, ?_, ?_⟩
    · rw [hrw, hpass1]
      exact hpass2
    · intro p hp
      have hmapentries : ((args.zip tps).enum.map (fun p => (p.1, p.2.1, p.2.2))).map
            (fun e => (slotD st.locations e.2.1, slotD st.locations e.2.2))
          = (args.zip tps).map
              (fun q => (slotD st.locations q.1, slotD st.locations q.2)) :=
        enum_entry_map (fun q => (slotD st.locations q.1, slotD st.locations q.2))
          (args.zip tps)
      have hem : st2.emitted = delta1 ++ delta2 := by
        rw [hem2, hem1, hemp]
        simp
      rw [hem, exec_append]
      have h1 := hexec1 st2.locations M hloc2
      have h2 := hexec2 st2.locations (exec st2.locations M delta1) (fun v _ => rfl)
      rw [h2, hupsmap, h1, hmapentries]
      have hnd : (((args.zip tps).map
          (fun q => (slotD st.locations q.1, slotD st.locations q.2))).map Prod.snd).Nodup := by
        rw [List.map_map]
        have he1 : (Prod.snd ∘ fun q : Value × Value =>
            (slotD st.locations q.1, slotD st.locations q.2))
            = (slotD st.locations ∘ Prod.snd) := by
          funext q
          rfl
        rw [he1, ← List.map_map]
        rw [List.map_snd_zip args tps (Nat.le_of_eq hlen.symm)]
        exact hnodup
      have hlt : ∀ q ∈ (args.zip tps).map
          (fun q => (slotD st.locations q.1, slotD st.locations q.2)),
          q.1 < st.nextSlot ∧ q.2 < st.nextSlot := by
        intro q hq
        rcases List.mem_map.mp hq with ⟨z, hz, hzq⟩
        obtain ⟨h1, h2⟩ := List.of_mem_zip hz
        rw [← hzq]
        exact ⟨haslt _ h1, htslt _ h2⟩
      have htgt : ∀ q ∈ (args.zip tps).map
          (fun q => (slotD st.locations q.1, slotD st.locations q.2)),
          q.2 ∈ tps.map (slotD st.locations) := by
        intro q hq
        rcases List.mem_map.mp hq with ⟨z, hz, hzq⟩
        obtain ⟨_, h2⟩ := List.of_mem_zip hz
        rw [← hzq]
        exact List.mem_map_of_mem (slotD st.locations) h2
      have hqmem : (slotD st.locations p.1, slotD st.locations p.2)
          ∈ (args.zip tps).map
            (fun q => (slotD st.locations q.1, slotD st.locations q.2)) :=
        List.mem_map_of_mem _ hp
      have hmain := parallel_move_pure (tps.map (slotD st.locations))
        ((args.zip tps).map (fun q => (slotD st.locations q.1, slotD st.locations q.2)))
        st.nextSlot M.mem hnd hlt htgt
        (slotD st.locations p.1, slotD st.locations p.2) hqmem
      rw [applyCopies_append] at hmain
      exact hmain
  · intro st tps args htstack hpairs
    have hrw : move_ebb_arguments st tps args
        = (match pass1 (tps.map (slotD st.locations)) st
            ((args.zip tps).enum.map (fun p => (p.1, p.2.1, p.2.2))) with
          | none => none
          | some (st1, updates) => pass2 st1 updates) := by
      unfold move_ebb_arguments
      rw [mapM_slotOf st tps htstack]
    have hentries : ∀ e ∈ (args.zip tps).enum.map (fun p => (p.1, p.2.1, p.2.2)),
        ∃ ss, st.locations e.2.1 = .stack ss ∧ st.locations e.2.2 = .stack ss :=
      fun e he => hpairs e.2 (enum_entry_mem _ e he)
    rw [hrw, pass1_all_equal (tps.map (slotD st.locations))
      ((args.zip tps).enum.map (fun p => (p.1, p.2.1, p.2.2))) st hentries]
    rfl
  · rfl
  · rfl
  · rfl

/-- Witness for C2: the general parallel-copy theorem applied to the
concrete swap scenario. -/
theorem parallel_copy_correct_witness :
    ∃ st', move_ebb_arguments swapSt [2, 3] [0, 1] = some st' ∧
      ∀ p ∈ ([0, 1] : List Value).zip [2, 3],
        (exec st'.locations swapMachine st'.emitted).mem (slotD swapSt.locations p.2)
          = swapMachine.mem (slotD swapSt.locations p.1) :=
  parallel_copy_correct.1 swapSt [2, 3] [0, 1] 0 [] swapMachine rfl rfl rfl
    (by
      intro v hv
      simp only [List.mem_cons, List.not_mem_nil, or_false] at hv
      rcases hv with rfl | rfl
      · exact ⟨1, rfl⟩
      · exact ⟨0, rfl⟩)
    (by
      intro v hv
      simp only [List.mem_cons, List.not_mem_nil, or_false] at hv
      rcases hv with rfl | rfl
      · exact ⟨0, rfl⟩
      · exact ⟨1, rfl⟩)
    (by decide) (by decide) (by decide) (by decide) (by decide)

end MinAlloc

end Cretonne
